import Mathlib

/-!
Verification of the 1brc-rust parse-and-aggregate pipeline.

This file gives a shallow embedding of the core of the repository:
the fixed-point temperature micro-parser (`parse_temp`), the SIMD
delimiter-mask scanner and field extractor (`toBitmask`, `extract_fields`),
the fill/drain aggregation loop (`parseChunks`, instantiated as `parseRs`
for `src/parse.rs` and `parseMain` for `src/main.rs`), the per-partition
table merge of `get_map_rayon`, the split-point partitioner, and the
formatting/emission step of `main`, including exact rational models of the
IEEE float operations used at emission time.

Machine integers are modelled as `Nat`/`Int` with explicit wrap-around
(`u32wrap`, `i64wrap`, `u8sub`) where the source uses fixed-width types
whose overflow is reachable.  Fallible or potentially diverging code
returns `Option` (`none` models a panic or a non-terminating loop).
-/

/-! ## Nat-level primitives -/

/-- A field span: the byte content of a `&[u8]` slice, each byte modelled
as a natural number (real data is `< 256`); slices are compared by content
in the source's hash map, so content is the right notion. -/
abbrev Span := List Nat

/-- Wrapping `u8` subtraction `a - b` for `a, b < 256`
(`t[i] - b'0'` in `parse_temp`). -/
def u8sub (a b : Nat) : Nat := (a + 256 - b) % 256

/-- `u32` wrap-around, for the `total += 1` / `total += other.total`
counters of the `Weather` struct. -/
def u32wrap (n : Nat) : Nat := n % 2 ^ 32

/-- `i64` wrap-around, for the `sum` accumulator of the `Weather` struct. -/
def i64wrap (x : Int) : Int := (x + 2 ^ 63) % 2 ^ 64 - 2 ^ 63

/-! ## Fixed-point temperature parser

Direct translation of `parse_temp` (identical in `src/main.rs:22-35` and
`src/parse.rs:12-25`).  `i16` arithmetic cannot overflow here: even for
arbitrary byte values the magnitude is at most `100*255 + 10*255 + 255 =
28305 < 2^15`, so plain `Int` is exact. -/

/-- Model of `fn parse_temp(t: &[u8]) -> i16`.
`is_neg = (t[0] == b'-')`, `sign = i16::from(!is_neg)*2 - 1`,
`skip = usize::from(is_neg)`, `has_dd = (t_len - skip == 4)`,
`mul = i16::from(has_dd)*90 + 10`, result `sign * (t1 + t2 + t3)`. -/
def parse_temp (t : Span) : Int :=
  let t_len := t.length
  let is_neg := t.getD 0 0 == 45
  let sign : Int := if is_neg then -1 else 1
  let skip := if is_neg then 1 else 0
  let has_dd := t_len - skip == 4
  let mul : Int := (if has_dd then 90 else 0) + 10
  let t1 : Int := mul * (u8sub (t.getD skip 0) 48 : Nat)
  let t2 : Int := (if has_dd then 10 else 0) * (u8sub (t.getD (t_len - 3) 0) 48 : Nat)
  let t3 : Int := (u8sub (t.getD (t_len - 1) 0) 48 : Nat)
  sign * (t1 + t2 + t3)

/-! ## Delimiter scanner

`chunk.simd_eq(SIMD_NEWLINE) | chunk.simd_eq(SIMD_DELIM)` followed by
`Mask::to_bitmask`.  Bit `i` of the `u64` mask is set iff lane `i` of the
64-byte window is `b'\n'` (10) or `b';'` (59). -/

/-- Lane predicate of the combined SIMD comparison. -/
def isDelim (b : Nat) : Bool := b == 10 || b == 59

/-- `Mask::to_bitmask`: lane `i` becomes bit `i` of a `u64`. -/
def toBitmask (lanes : List Bool) : Nat :=
  lanes.foldr (fun b acc => (if b then 1 else 0) + 2 * acc) 0

/-- Mask of one 64-byte window. -/
def maskOf (chunk : List Nat) : Nat := toBitmask (chunk.map isDelim)

/-- `u64::trailing_zeros`, fuel-bounded by the word width so that the
kernel can evaluate it. -/
def tzGo : Nat → Nat → Nat
  | 0, _ => 0
  | f + 1, n => if n % 2 = 1 then 0 else tzGo f (n / 2) + 1

/-- Trailing zeros of a (nonzero) `u64` value. -/
def tz (n : Nat) : Nat := tzGo 64 n

/-- `u64::count_ones`, fuel-bounded by the word width. -/
def pcGo : Nat → Nat → Nat
  | 0, _ => 0
  | f + 1, n => n % 2 + pcGo f (n / 2)

/-- Population count of a `u64` value. -/
def pc (n : Nat) : Nat := pcGo 64 n

/-- `combined &= combined - 1`: clear the lowest set bit. -/
def clearLow (n : Nat) : Nat := n &&& (n - 1)

/-- The slice `data[a..b]`. -/
def subSpan (data : List Nat) (a b : Nat) : Span := (data.drop a).take (b - a)

/-! ## Field extractor

Translation of `extract_fields` (`src/main.rs:119-136`,
`src/parse.rs:87-105`): iterate over the set bits of the window mask in
ascending order (`trailing_zeros` / clear-lowest-bit, equivalently the
`for _ in 0..combined.count_ones()` form of `parse.rs`), emitting the
slice `data[prev..pos+i]` for each set bit `i` and setting
`prev = pos + i + 1`. -/

/-- One `extract_fields` call, unrolled on the popcount of the mask.
Returns the emitted fields (in order) and the final `prev`. -/
def extractGo (data : List Nat) (pos : Nat) : Nat → Nat → Nat → List Span × Nat
  | 0, _, prev => ([], prev)
  | f + 1, combined, prev =>
    let i := tz combined
    let current := pos + i
    let rest := extractGo data pos f (clearLow combined) (current + 1)
    (subSpan data prev current :: rest.1, rest.2)

/-- Model of `extract_fields`. -/
def extract_fields (data : List Nat) (prev pos combined : Nat) : List Span × Nat :=
  extractGo data pos (pc combined) combined prev

/-! ## Windowing

`data.as_chunks::<64>()` plus the final `Simd::load_or_default(remainder)`
window (zero-padded), as chained in `parse`. -/

/-- `as_chunks::<64>`: full 64-byte chunks and the remainder, fuel-bounded
by the data length for kernel evaluation. -/
def asChunksGo : Nat → List Nat → List (List Nat) × List Nat
  | 0, l => ([], l)
  | f + 1, l =>
    if l.length < 64 then ([], l)
    else
      let rest := asChunksGo f (l.drop 64)
      (l.take 64 :: rest.1, rest.2)

/-- `data.as_chunks()` with chunk size 64. -/
def asChunks (data : List Nat) : List (List Nat) × List Nat :=
  asChunksGo data.length data

/-- `Simd::load_or_default`: zero-pad the remainder to a 64-byte window. -/
def loadOrDefault (r : List Nat) : List Nat := r ++ List.replicate (64 - r.length) 0

/-- The window-mask sequence consumed by the `parse` loop: one mask per
full chunk, then one mask for the zero-padded remainder window. -/
def masksOf (data : List Nat) : List Nat :=
  (asChunks data).1.map maskOf ++ [maskOf (loadOrDefault (asChunks data).2)]

/-! ## Aggregation table

`Weather` and the `entry().and_modify().or_insert()` update
(`src/parse.rs:61-77`, `src/main.rs:93-109`).  The hash map is modelled as
an association list keyed by slice content; hashing only affects bucket
layout, not the mapping. -/

/-- Running statistics per station (`struct Weather`): `total: u32`,
`min: i16`, `max: i16`, `sum: i64`. -/
structure Weather where
  total : Nat
  min : Int
  max : Int
  sum : Int
  deriving DecidableEq, Repr

/-- The aggregation table: station-name bytes to running statistics. -/
abbrev WMap := List (Span × Weather)

/-- Hash-map lookup by key content. -/
def lookupW : WMap → Span → Option Weather
  | [], _ => none
  | (k, w) :: rest, key => if k = key then some w else lookupW rest key

/-- `or_insert(Weather { total: 1, min: v, max: v, sum: v as i64 })`. -/
def initW (v : Int) : Weather := ⟨1, v, v, i64wrap v⟩

/-- The `and_modify` closure of the per-record update. -/
def updW (w : Weather) (v : Int) : Weather :=
  ⟨u32wrap (w.total + 1), min w.min v, max w.max v, i64wrap (w.sum + v)⟩

/-- `map.entry(station).and_modify(..).or_insert(..)` for one observation. -/
def observe : WMap → Span → Int → WMap
  | [], k, v => [(k, initW v)]
  | (k', w) :: rest, k, v =>
    if k' = k then (k', updW w v) :: rest else (k', w) :: observe rest k v

/-- One drained buffer pair: station span and temperature span. -/
def obsPair (m : WMap) (p : Span × Span) : WMap := observe m p.1 (parse_temp p.2)

/-! ## The fill/drain loop of `parse`

`src/parse.rs:47-83` and `src/main.rs:79-115`.  The outer loop fills the
field buffer from successive window masks while `count < T` (`T = 96` in
`parse.rs`, `T = 32` in `main.rs`), drains complete (station, temperature)
pairs, and carries a trailing unpaired field (`buf[0] = buf[count -
is_odd]`).  On an exhausted iterator the loop exits only when `count == 0`;
a permanently odd leftover spins forever, modelled as `none`. -/

/-- Split a list into consecutive pairs, dropping a trailing odd element
(the drain loop `for i in 0..count/2`). -/
def pairUp {α : Type} : List α → List (α × α)
  | a :: b :: rest => (a, b) :: pairUp rest
  | _ => []

/-- The carried remainder `buf[0] = buf[count - is_odd]; count = is_odd`. -/
def oddTail {α : Type} (l : List α) : List α :=
  if l.length % 2 = 1 then l.drop (l.length - 1) else []

/-- Drain all complete pairs of the buffer into the table, in order. -/
def drainMap (m : WMap) (buf : List Span) : WMap := (pairUp buf).foldl obsPair m

/-- The outer fill/drain loop over the remaining window masks.  `T` is the
fill threshold; the drain runs as soon as the field count reaches `T`
(checked between windows, as in the source's inner `while count < T`).
At exhaustion an even field count drains and exits; an odd one loops
forever (`none`). -/
def parseChunks (T : Nat) (data : List Nat) :
    List Nat → Nat → Nat → List Span → WMap → Option WMap
  | [], _, _, buf, m =>
    if buf.length % 2 = 0 then some (drainMap m buf) else none
  | mask :: ms, prev, pos, buf, m =>
    let e := extract_fields data prev pos mask
    let buf' := buf ++ e.1
    if T ≤ buf'.length then
      parseChunks T data ms e.2 (pos + 64) (oddTail buf') (drainMap m buf')
    else
      parseChunks T data ms e.2 (pos + 64) buf' m

/-- `parse` of `src/parse.rs` (buffer 128, threshold `64 + 32`). -/
def parseRs (data : List Nat) : Option WMap :=
  parseChunks 96 data (masksOf data) 0 0 [] []

/-- `parse` of `src/main.rs` (buffer 64, threshold 32). -/
def parseMain (data : List Nat) : Option WMap :=
  parseChunks 32 data (masksOf data) 0 0 [] []

/-! ## Merging per-partition tables

The `reduce_with` closure of `get_map_rayon` (`src/main.rs:176-188`). -/

/-- The combine rule: sum the totals and sums (with wrap-around), take the
min of mins and the max of maxes. -/
def combineW (a b : Weather) : Weather :=
  ⟨u32wrap (a.total + b.total), min a.min b.min, max a.max b.max, i64wrap (a.sum + b.sum)⟩

/-- `acc.entry(station).and_modify(combine).or_insert(measurement)`. -/
def insertCombine : WMap → Span → Weather → WMap
  | [], k, w => [(k, w)]
  | (k', w') :: rest, k, w =>
    if k' = k then (k', combineW w' w) :: rest else (k', w') :: insertCombine rest k w

/-- Merge table `other` into `acc`, entry by entry. -/
def mergeTables (acc other : WMap) : WMap :=
  other.foldl (fun a kw => insertCombine a kw.1 kw.2) acc

/-! ## Partitioner and parallel reducer

`get_map_rayon` (`src/main.rs:144-192`): `N-1` approximate split points at
multiples of `len / N`, each snapped backward to the last newline of
`bytes[start..approx_end]` via `memrchr`; a window without a newline
panics (`none`).  The last block absorbs the remainder.  The reduction is
modelled as a sequential fold (order-independence is proved separately). -/

/-- `memrchr(b'\n', slice)`: index of the last newline of the slice. -/
def findLastNl : List Nat → Option Nat
  | [] => none
  | b :: rest =>
    match findLastNl rest with
    | some i => some (i + 1)
    | none => if b == 10 then some 0 else none

/-- The split-point loop: for each of the remaining iterations, snap the
approximate end `(i+1) * blockSize` back to one past the last newline of
`bytes[start..approx_end]`.  Returns the end offsets of the first `N-1`
blocks, or `none` on a window without a newline (the `panic!`). -/
def snapGo (bytes : List Nat) (blockSize : Nat) : List Nat → Nat → Option (List Nat)
  | [], _ => some []
  | i :: is, start =>
    let approxEnd := (i + 1) * blockSize
    match findLastNl (subSpan bytes start approxEnd) with
    | none => none
    | some idx =>
      let e := start + idx + 1
      (snapGo bytes blockSize is e).map (fun rest => e :: rest)

/-- The block ranges `[start, end)` produced by the partitioner for
`numThreads` workers (the last block runs to the end of the buffer). -/
def partitionRanges (bytes : List Nat) (numThreads : Nat) : Option (List (Nat × Nat)) :=
  (snapGo bytes (bytes.length / numThreads) (List.range (numThreads - 1)) 0).map
    (fun ends =>
      ((ends.zip (0 :: ends)).map (fun p => (p.2, p.1))) ++
        [((0 :: ends).getLast (by simp), bytes.length)])

/-- Model of `get_map_rayon`: partition, parse each block, fold the merge.
`none` models the snap `panic!`, a diverging per-block parse, or the
(unreachable for `numThreads ≥ 1`) empty reduction. -/
def getMapRayon (bytes : List Nat) (numThreads : Nat) : Option WMap := do
  let ranges ← partitionRanges bytes numThreads
  let tables ← (ranges.map (fun r => parseMain (subSpan bytes r.1 r.2))).allSome
  match tables with
  | [] => none
  | t :: ts => some (ts.foldl mergeTables t)

/-! ## Exact models of the emission-time float operations

`main` (`src/main.rs:194-215`) renders `min as f32 * 0.1`,
`(sum as f64 / total as f64) * 0.1` and `max as f32 * 0.1` with `{:.1}`.
IEEE binary operations are correctly rounded, so they are modelled as
exact rational arithmetic followed by round-to-nearest (ties to even) at
the format's precision; `{:.1}` renders the exact decimal value of the
float rounded to one fractional digit, ties to even (the rounding of
Rust's exact `flt2dec` fixed-precision formatting).

To keep everything kernel-evaluable, rationals are carried as explicit
integer fractions (`Frac`, numerator over positive denominator) and float
values as dyadics (`Dy`, mantissa times a power of two), with no
normalisation. -/

/-- An unreduced fraction `n / d` (`d > 0` in all uses). -/
abbrev Frac := Int × Nat

/-- A dyadic value `m * 2 ^ e`: the exact value of a binary float. -/
abbrev Dy := Int × Int

/-- The exact value of a dyadic as a fraction. -/
def dyToFrac (x : Dy) : Frac :=
  if 0 ≤ x.2 then (x.1 * 2 ^ x.2.toNat, 1) else (x.1, 2 ^ (-x.2).toNat)

/-- Round `n / d` to an integer, round-half-to-even (`d > 0`). -/
def rneFrac (n : Int) (d : Nat) : Int :=
  let fl := n.ediv d
  let r2 := 2 * (n - fl * d)
  if r2 < (d : Int) then fl
  else if (d : Int) < r2 then fl + 1
  else if fl % 2 = 0 then fl else fl + 1

/-- Largest `k` (within fuel) with `b * 2 ^ (k+1) ≤ a`, plus one step. -/
def log2Up (a b : Nat) : Nat → Nat → Nat
  | k, 0 => k
  | k, f + 1 => if b * 2 ^ (k + 1) ≤ a then log2Up a b (k + 1) f else k

/-- Smallest `k` (within fuel) with `b ≤ a * 2 ^ k`. -/
def log2Down (a b : Nat) : Nat → Nat → Nat
  | k, 0 => k
  | k, f + 1 => if b ≤ a * 2 ^ k then k else log2Down a b (k + 1) f

/-- Floor of the base-2 logarithm of `a / b` (`a, b > 0`). -/
def floorLog2F (a b : Nat) : Int :=
  if b ≤ a then (log2Up a b 0 300 : Int) else -(log2Down a b 0 300 : Int)

/-- Round a fraction to the nearest binary float with a `prec`-bit
significand (round-half-to-even), as a dyadic.  The exponent range is
unbounded; the values of this development stay far from the subnormal and
overflow ranges of `f32`/`f64`. -/
def roundFloat (prec : Nat) (f : Frac) : Dy :=
  if f.1 = 0 then (0, 0)
  else
    let e := floorLog2F f.1.natAbs f.2
    let s : Int := (prec : Int) - 1 - e
    if 0 ≤ s then (rneFrac (f.1 * 2 ^ s.toNat) f.2, -s)
    else (rneFrac f.1 (f.2 * 2 ^ (-s).toNat), -s)

/-- `f32` rounding (24-bit significand). -/
def toF32 (f : Frac) : Dy := roundFloat 24 f

/-- `f64` rounding (53-bit significand). -/
def toF64 (f : Frac) : Dy := roundFloat 53 f

/-- Exact product of two fractions. -/
def mulFrac (x y : Frac) : Frac := (x.1 * y.1, x.2 * y.2)

/-- Exact quotient of two dyadics as a fraction (`y ≠ 0` in all uses). -/
def divDy (x y : Dy) : Frac :=
  let fx := dyToFrac x
  let fy := dyToFrac y
  if 0 ≤ fy.1 then (fx.1 * fy.2, fx.2 * fy.1.toNat)
  else (-(fx.1 * fy.2), fx.2 * (-fy.1).toNat)

/-- `v as f32 * 0.1` for an `i16` value `v`: the `as f32` conversion is
exact below `2^24`, and `0.1f32 = 13421773 * 2^-27`. -/
def f32TimesTenth (v : Int) : Dy := toF32 (v * 13421773, 2 ^ 27)

/-- `(sum as f64 / total as f64) * 0.1`, each step correctly rounded;
`0.1f64 = 3602879701896397 * 2^-55`. -/
def meanF64 (sum : Int) (total : Nat) : Dy :=
  let q := toF64 (divDy (toF64 (sum, 1)) (toF64 (total, 1)))
  toF64 (mulFrac (dyToFrac q) (3602879701896397, 2 ^ 55))

/-! ## Formatting and emission -/

/-- Decimal digits (ASCII) of a natural number, fuel-bounded. -/
def decGo : Nat → Nat → List Nat
  | 0, _ => []
  | f + 1, n => if n < 10 then [48 + n] else decGo f (n / 10) ++ [48 + n % 10]

/-- ASCII decimal rendering of a natural number. -/
def decRender (n : Nat) : List Nat := decGo 30 n

/-- `10 * |x|` of a dyadic, rounded to an integer half-to-even: the tenths
digit position of `{:.1}`. -/
def tenths (x : Dy) : Nat :=
  if 0 ≤ x.2 then 10 * x.1.natAbs * 2 ^ x.2.toNat
  else (rneFrac (10 * (x.1.natAbs : Int)) (2 ^ (-x.2).toNat)).toNat

/-- `{:.1}` formatting of a float value given as an exact dyadic:
sign, integer part, `'.'`, exactly one fractional digit. -/
def fmt1 (x : Dy) : List Nat :=
  (if x.1 < 0 then [45] else []) ++
    (let n := tenths x
     decRender (n / 10) ++ [46, 48 + n % 10])

/-- Nat-lexicographic `≤` on spans (the `Ord` of `&[u8]` used by
`BTreeMap`). -/
def lexLe : Span → Span → Bool
  | [], _ => true
  | _ :: _, [] => false
  | a :: as', b :: bs' => if a < b then true else if a = b then lexLe as' bs' else false

/-- Insert into a list sorted by `lexLe` on the key. -/
def insortW (kw : Span × Weather) : WMap → WMap
  | [] => [kw]
  | x :: xs => if lexLe kw.1 x.1 then kw :: x :: xs else x :: insortW kw xs

/-- `parse(bytes).into_iter().collect::<BTreeMap<_, _>>()`: the table in
ascending byte-lexicographic key order. -/
def sortTable (m : WMap) : WMap := m.foldr insortW []

/-- Model of `get_map` (`src/main.rs:139-141`). -/
def getMap (bytes : List Nat) : Option WMap := (parseMain bytes).map sortTable

/-- One formatted entry: `STATION=MIN/MEAN/MAX`, each value with one
fractional digit. -/
def entryBytes (kw : Span × Weather) : List Nat :=
  kw.1 ++ [61] ++ fmt1 (f32TimesTenth kw.2.min) ++ [47] ++
    fmt1 (meanF64 kw.2.sum kw.2.total) ++ [47] ++ fmt1 (f32TimesTenth kw.2.max)

/-- The emission loop of `main`: `'\x7b'`, entries separated by `", "`,
`'\x7d'` and a newline. -/
def emitBytes (sorted : WMap) : List Nat :=
  123 :: (List.intersperse [44, 32] (sorted.map entryBytes)).flatten ++ [125, 10]

/-- The full single-partition pipeline of `main`: `get_map` then emit. -/
def mainOutput (bytes : List Nat) : Option (List Nat) :=
  (getMap bytes).map emitBytes

/-- ASCII bytes of a string literal (for stating concrete outputs). -/
def strBytes (s : String) : List Nat := s.toList.map Char.toNat

/-! ## The input grammar (from the spec, section 6)

A record is `STATION;TEMPERATURE\n` with a nonempty, delimiter-free
station name and a temperature matching `-?[0-9]{1,2}\.[0-9]`. -/

/-- The temperature grammar `-?D\x7b1,2\x7d.D`, stated by digit shape. -/
def TempGrammar (t : Span) : Prop :=
  ∃ d1 < 10, ∃ d2 < 10, ∃ d3 < 10,
    t = [48 + d1, 46, 48 + d2] ∨ t = [48 + d1, 48 + d2, 46, 48 + d3] ∨
      t = [45, 48 + d1, 46, 48 + d2] ∨ t = [45, 48 + d1, 48 + d2, 46, 48 + d3]

instance decTempGrammar (t : Span) : Decidable (TempGrammar t) := by
  unfold TempGrammar; infer_instance

/-- A record: nonempty station without delimiter bytes, and a temperature
span in the grammar. -/
def ValidRec (r : Span × Span) : Prop :=
  r.1 ≠ [] ∧ (∀ b ∈ r.1, isDelim b = false) ∧ TempGrammar r.2

instance decValidRec (r : Span × Span) : Decidable (ValidRec r) := by
  unfold ValidRec; infer_instance

/-- The byte encoding `STATION;TEMPERATURE\n` of one record. -/
def encodeRec (r : Span × Span) : List Nat := r.1 ++ 59 :: (r.2 ++ [10])

/-- A well-formed input buffer: the concatenation of encoded records. -/
def encodeRecs (rs : List (Span × Span)) : List Nat := (rs.map encodeRec).flatten

/-- The reference aggregation: one sequential `observe` per record. -/
def refMap (rs : List (Span × Span)) : WMap := rs.foldl obsPair []

/-! ## Claim theorems: concrete scenarios -/

/-- Values of `parse_temp` on every grammar shape (the four digit shapes
of `-?D\x7b1,2\x7d.D`), proved by exhausting the digits. -/
theorem parse_temp_digits : ∀ d1 < 10, ∀ d2 < 10, ∀ d3 < 10,
    parse_temp [48 + d1, 46, 48 + d2] = 10 * (d1 : Int) + d2 ∧
    parse_temp [48 + d1, 48 + d2, 46, 48 + d3] = 100 * (d1 : Int) + 10 * d2 + d3 ∧
    parse_temp [45, 48 + d1, 46, 48 + d2] = -(10 * (d1 : Int) + d2) ∧
    parse_temp [45, 48 + d1, 48 + d2, 46, 48 + d3] = -(100 * (d1 : Int) + 10 * d2 + d3) := by
  intro d1 h1 d2 h2 d3 h3
  interval_cases d1 <;> interval_cases d2 <;> interval_cases d3 <;> decide

/-- C2: for every byte span matching the grammar `-?D\x7b1,2\x7d.D`,
`parse_temp` returns the signed integer equal to the decimal value times
ten; in particular on `"-3.2"`, `"0.0"`, `"99.9"`, `"-0.1"`, `"12.5"` it
returns `-32`, `0`, `999`, `-1`, `125`. -/
theorem c2_parse_temp_grammar :
    (∀ d1 < 10, ∀ d2 < 10, ∀ d3 < 10,
      parse_temp [48 + d1, 46, 48 + d2] = 10 * (d1 : Int) + d2 ∧
      parse_temp [48 + d1, 48 + d2, 46, 48 + d3] = 100 * (d1 : Int) + 10 * d2 + d3 ∧
      parse_temp [45, 48 + d1, 46, 48 + d2] = -(10 * (d1 : Int) + d2) ∧
      parse_temp [45, 48 + d1, 48 + d2, 46, 48 + d3] =
        -(100 * (d1 : Int) + 10 * d2 + d3)) ∧
    parse_temp (strBytes "-3.2") = -32 ∧ parse_temp (strBytes "0.0") = 0 ∧
    parse_temp (strBytes "99.9") = 999 ∧ parse_temp (strBytes "-0.1") = -1 ∧
    parse_temp (strBytes "12.5") = 125 :=
  ⟨parse_temp_digits, by decide, by decide, by decide, by decide, by decide⟩

/-- Witness for C2 at a concrete grammar span. -/
theorem c2_parse_temp_grammar_witness :
    parse_temp [48 + 1, 48 + 2, 46, 48 + 5] = 100 * (1 : Int) + 10 * 2 + 5 :=
  ((c2_parse_temp_grammar.1 1 (by decide) 2 (by decide) 5 (by decide)).2.1)

/-- C1: the three-record input processed with a single partition
aggregates Hamburg to (total 2, min 85, max 120, sum 205) and Oslo to
(total 1, min -23, max -23, sum -23), with no other entries, and `main`
emits exactly the expected byte string. -/
theorem c1_end_to_end :
    parseMain (strBytes "Hamburg;12.0\nHamburg;8.5\nOslo;-2.3\n") =
      some [(strBytes "Hamburg", ⟨2, 85, 120, 205⟩),
        (strBytes "Oslo", ⟨1, -23, -23, -23⟩)] ∧
    mainOutput (strBytes "Hamburg;12.0\nHamburg;8.5\nOslo;-2.3\n") =
      some (strBytes "\x7bHamburg=8.5/10.2/12.0, Oslo=-2.3/-2.3/-2.3\x7d\n") := by
  decide

/-- C10: a zero-length buffer parses (in both variants) to an empty table
with no error, and the emission step then produces exactly the bytes
`"\x7b\x7d\n"`. -/
theorem c10_empty_buffer :
    parseRs [] = some [] ∧ parseMain [] = some [] ∧
    mainOutput [] = some (strBytes "\x7b\x7d\n") := by
  decide

/-! ## Reference field splitting

The observable content of the scanner/extractor pipeline: ascending
delimiter positions, and the spans cut between consecutive delimiters. -/

/-- Indices (ascending) of `true` lanes of a Boolean window. -/
def trueIdxList : List Bool → List Nat
  | [] => []
  | b :: bs =>
    if b then 0 :: (trueIdxList bs).map (· + 1) else (trueIdxList bs).map (· + 1)

/-- Ascending delimiter positions of a buffer. -/
def delimIdx (data : List Nat) : List Nat := trueIdxList (data.map isDelim)

/-- The index sequence visited by the bit loop of `extract_fields`. -/
def maskIdx : Nat → Nat → List Nat
  | 0, _ => []
  | f + 1, n => tz n :: maskIdx f (clearLow n)

/-- The spans cut between consecutive delimiter positions. -/
def spansGo (data : List Nat) : Nat → List Nat → List Span
  | _, [] => []
  | prev, p :: ps => subSpan data prev p :: spansGo data (p + 1) ps

/-- The `prev` offset after consuming a list of delimiter positions. -/
def prevAfter : Nat → List Nat → Nat
  | prev, [] => prev
  | _, p :: ps => prevAfter (p + 1) ps

/-- Reference field list of a buffer: the spans between consecutive
delimiters; the trailing span after the last delimiter is never emitted. -/
def refFields (data : List Nat) : List Span := spansGo data 0 (delimIdx data)

/-! ## Bit-level lemmas: the trailing-zeros loop enumerates set bits -/

theorem tzGo_zero (f : Nat) : tzGo f 0 = f := by
  induction f with
  | zero => rfl
  | succ f ih => simp [tzGo, ih]

theorem pcGo_zero (f : Nat) : pcGo f 0 = 0 := by
  induction f with
  | zero => rfl
  | succ f ih => simp [pcGo, ih]

theorem tzGo_odd (f m : Nat) : tzGo (f + 1) (2 * m + 1) = 0 := by
  simp [tzGo, Nat.mul_add_mod]

theorem tzGo_even (f m : Nat) : tzGo (f + 1) (2 * m) = tzGo f m + 1 := by
  have h2 : 2 * m % 2 = 0 := Nat.mul_mod_right 2 m
  have h3 : 2 * m / 2 = m := by omega
  simp [tzGo, h2, h3]

theorem tzGo_fuel : ∀ f g m, m ≠ 0 → m < 2 ^ f → f ≤ g → tzGo g m = tzGo f m := by
  intro f
  induction f with
  | zero => intro g m hm hlt _; interval_cases m; exact absurd rfl hm
  | succ f ih =>
    intro g m hm hlt hle
    obtain ⟨g, rfl⟩ : ∃ g', g = g' + 1 := ⟨g - 1, by omega⟩
    rcases Nat.even_or_odd m with ⟨k, hk⟩ | ⟨k, hk⟩
    · have hk2 : m = 2 * k := by omega
      subst hk2
      rw [tzGo_even, tzGo_even, ih g k (by omega) (by rw [pow_succ] at hlt; omega) (by omega)]
    · subst hk
      rw [tzGo_odd, tzGo_odd]

theorem pcGo_fuel : ∀ f g m, m < 2 ^ f → f ≤ g → pcGo g m = pcGo f m := by
  intro f
  induction f with
  | zero => intro g m hlt _; interval_cases m; simp [pcGo_zero]
  | succ f ih =>
    intro g m hlt hle
    obtain ⟨g, rfl⟩ : ∃ g', g = g' + 1 := ⟨g - 1, by omega⟩
    have h2 : m / 2 < 2 ^ f := by rw [pow_succ] at hlt; omega
    simp only [pcGo]
    rw [ih g (m / 2) h2 (by omega)]

theorem clearLow_odd (m : Nat) : clearLow (2 * m + 1) = 2 * m := by
  unfold clearLow
  have h1 : 2 * m + 1 - 1 = 2 * m := by omega
  rw [h1]
  apply Nat.eq_of_testBit_eq
  intro i
  cases i with
  | zero =>
    rw [Nat.testBit_land]
    simp [Nat.testBit_zero, Nat.mul_add_mod, Nat.mul_mod_right]
  | succ i =>
    rw [Nat.testBit_land]
    have h2 : (2 * m + 1) / 2 = m := by omega
    have h3 : 2 * m / 2 = m := by omega
    simp [Nat.testBit_succ, h2, h3]

theorem clearLow_even (m : Nat) (hm : m ≠ 0) : clearLow (2 * m) = 2 * clearLow m := by
  unfold clearLow
  have h1 : 2 * m - 1 = 2 * (m - 1) + 1 := by omega
  rw [h1]
  apply Nat.eq_of_testBit_eq
  intro i
  cases i with
  | zero =>
    rw [Nat.testBit_land]
    simp [Nat.testBit_zero, Nat.mul_add_mod, Nat.mul_mod_right]
  | succ i =>
    rw [Nat.testBit_land]
    have h2 : 2 * m / 2 = m := by omega
    have h3 : (2 * (m - 1) + 1) / 2 = m - 1 := by omega
    have h4 : 2 * Nat.land m (m - 1) / 2 = Nat.land m (m - 1) := by omega
    simp [Nat.testBit_succ, h2, h3, h4, Nat.testBit_land]

theorem clearLow_le (m : Nat) : clearLow m ≤ m := by
  rcases Nat.eq_zero_or_pos m with h | h
  · subst h; rfl
  · calc clearLow m ≤ m - 1 := Nat.and_le_right
    _ ≤ m := by omega

theorem pcGo_pos : ∀ f m, m ≠ 0 → m < 2 ^ f → 1 ≤ pcGo f m := by
  intro f
  induction f with
  | zero => intro m hm hlt; interval_cases m; exact absurd rfl hm
  | succ f ih =>
    intro m hm hlt
    simp only [pcGo]
    rcases Nat.even_or_odd m with ⟨k, hk⟩ | ⟨k, hk⟩
    · have hk2 : m = 2 * k := by omega
      subst hk2
      have : 1 ≤ pcGo f k := ih k (by omega) (by rw [pow_succ] at hlt; omega)
      have h3 : 2 * k / 2 = k := by omega
      rw [h3]; omega
    · subst hk; omega

theorem pcGo_clearLow : ∀ f m, m ≠ 0 → m < 2 ^ f → pcGo f (clearLow m) = pcGo f m - 1 := by
  intro f
  induction f with
  | zero => intro m hm hlt; interval_cases m; exact absurd rfl hm
  | succ f ih =>
    intro m hm hlt
    rcases Nat.even_or_odd m with ⟨k, hk⟩ | ⟨k, hk⟩
    · have hk2 : m = 2 * k := by omega
      subst hk2
      have hk0 : k ≠ 0 := by omega
      rw [clearLow_even k hk0]
      have hlt' : k < 2 ^ f := by rw [pow_succ] at hlt; omega
      have e1 : 2 * clearLow k % 2 = 0 := Nat.mul_mod_right 2 _
      have e2 : 2 * clearLow k / 2 = clearLow k := by omega
      have e3 : 2 * k % 2 = 0 := Nat.mul_mod_right 2 _
      have e4 : 2 * k / 2 = k := by omega
      simp only [pcGo, e1, e2, e3, e4]
      rw [ih k hk0 hlt']
      have := pcGo_pos f k hk0 hlt'
      omega
    · subst hk
      rw [clearLow_odd]
      have e1 : 2 * k % 2 = 0 := Nat.mul_mod_right 2 _
      have e2 : 2 * k / 2 = k := by omega
      have e3 : (2 * k + 1) % 2 = 1 := by omega
      have e4 : (2 * k + 1) / 2 = k := by omega
      simp only [pcGo, e1, e2, e3, e4]
      omega

/-! ## `to_bitmask` and the bit loop -/

theorem toBitmask_cons (b : Bool) (bs : List Bool) :
    toBitmask (b :: bs) = (if b then 1 else 0) + 2 * toBitmask bs := rfl

theorem toBitmask_lt (bs : List Bool) : toBitmask bs < 2 ^ bs.length := by
  induction bs with
  | nil => simp [toBitmask]
  | cons b bs ih =>
    rw [toBitmask_cons]
    simp only [List.length_cons, pow_succ]
    rcases b <;> simp <;> omega

theorem toBitmask_fcons (bs : List Bool) : toBitmask (false :: bs) = 2 * toBitmask bs := by
  rw [toBitmask_cons]; simp

theorem toBitmask_tcons (bs : List Bool) : toBitmask (true :: bs) = 2 * toBitmask bs + 1 := by
  rw [toBitmask_cons]; simp; omega

theorem pcGo_toBitmask : ∀ (f : Nat) (bs : List Bool), bs.length ≤ f →
    pcGo f (toBitmask bs) = bs.count true := by
  intro f
  induction f with
  | zero =>
    intro bs h
    have hb : bs = [] := List.length_eq_zero.mp (by omega)
    subst hb; rfl
  | succ f ih =>
    intro bs h
    cases bs with
    | nil => simp [toBitmask, pcGo_zero]
    | cons b bs =>
      have hlen : bs.length ≤ f := by simp at h; omega
      rcases b with _ | _
      · rw [toBitmask_fcons]
        have e1 : 2 * toBitmask bs % 2 = 0 := by omega
        have e2 : 2 * toBitmask bs / 2 = toBitmask bs := by omega
        simp only [pcGo, e1, e2, ih bs hlen]
        simp [List.count_cons]
      · rw [toBitmask_tcons]
        have e1 : (2 * toBitmask bs + 1) % 2 = 1 := by omega
        have e2 : (2 * toBitmask bs + 1) / 2 = toBitmask bs := by omega
        simp only [pcGo, e1, e2, ih bs hlen]
        simp [List.count_cons]
        omega

theorem maskIdx_two_mul : ∀ (c m : Nat), m < 2 ^ 63 → c ≤ pcGo 64 m →
    maskIdx c (2 * m) = (maskIdx c m).map (· + 1) := by
  intro c
  induction c with
  | zero => intro m _ _; rfl
  | succ c ih =>
    intro m hlt hc
    have hm : m ≠ 0 := by
      rintro rfl
      rw [pcGo_zero] at hc
      omega
    have htz : tz (2 * m) = tz m + 1 := by
      show tzGo 64 (2 * m) = tzGo 64 m + 1
      have h64 : tzGo 64 m = tzGo 63 m :=
        (tzGo_fuel 63 64 m hm (by exact_mod_cast hlt) (by omega)).symm ▸ rfl
      rw [show (64 : Nat) = 63 + 1 from rfl, tzGo_even]
      rw [tzGo_fuel 63 64 m hm hlt (by omega)]
    have hcl : clearLow (2 * m) = 2 * clearLow m := clearLow_even m hm
    simp only [maskIdx, htz, hcl]
    rw [ih (clearLow m) (lt_of_le_of_lt (clearLow_le m) hlt)
      (by rw [pcGo_clearLow 64 m hm (by calc m < 2 ^ 63 := hlt
                                          _ < 2 ^ 64 := by norm_num)]; omega)]
    simp

theorem maskIdx_toBitmask : ∀ (bs : List Bool), bs.length ≤ 64 →
    maskIdx (bs.count true) (toBitmask bs) = trueIdxList bs := by
  intro bs
  induction bs with
  | nil => intro _; rfl
  | cons b bs ih =>
    intro h
    have hlen : bs.length ≤ 63 := by simp at h; omega
    have hlt : toBitmask bs < 2 ^ 63 :=
      lt_of_lt_of_le (toBitmask_lt bs) (Nat.pow_le_pow_right (by norm_num) hlen)
    have hpc : pcGo 64 (toBitmask bs) = bs.count true :=
      pcGo_toBitmask 64 bs (by omega)
    rcases b with _ | _
    · -- false lane: mask is 2 * toBitmask bs, no index emitted here
      rw [toBitmask_fcons]
      rw [show (false :: bs).count true = bs.count true by simp [List.count_cons]]
      rw [maskIdx_two_mul (bs.count true) (toBitmask bs) hlt (by omega)]
      rw [ih (by omega)]
      simp [trueIdxList]
    · -- true lane: lowest bit set, index 0 emitted
      rw [toBitmask_tcons]
      rw [show (true :: bs).count true = bs.count true + 1 by simp [List.count_cons]]
      simp only [maskIdx]
      have h1 : tz (2 * toBitmask bs + 1) = 0 := tzGo_odd 63 (toBitmask bs)
      have h2 : clearLow (2 * toBitmask bs + 1) = 2 * toBitmask bs :=
        clearLow_odd (toBitmask bs)
      rw [h1, h2, maskIdx_two_mul (bs.count true) (toBitmask bs) hlt (by omega), ih (by omega)]
      simp [trueIdxList]

/-! ## From the extractor loop to spans over delimiter positions -/

/-- All fields produced by successive `extract_fields` calls over a mask
sequence, threading `prev` and advancing `pos` by the window width. -/
def extractAllGo (data : List Nat) : List Nat → Nat → Nat → List Span
  | [], _, _ => []
  | mask :: ms, prev, pos =>
    (extract_fields data prev pos mask).1 ++
      extractAllGo data ms (extract_fields data prev pos mask).2 (pos + 64)

/-- The absolute delimiter-index stream of a mask sequence. -/
def idxAllGo : List Nat → Nat → List Nat
  | [], _ => []
  | mask :: ms, pos => (maskIdx (pc mask) mask).map (pos + ·) ++ idxAllGo ms (pos + 64)

theorem extractGo_spec (data : List Nat) (pos : Nat) : ∀ (f n prev : Nat),
    extractGo data pos f n prev =
      (spansGo data prev ((maskIdx f n).map (pos + ·)),
        prevAfter prev ((maskIdx f n).map (pos + ·))) := by
  intro f
  induction f with
  | zero => intro n prev; rfl
  | succ f ih =>
    intro n prev
    simp only [extractGo, maskIdx, List.map_cons, spansGo, prevAfter, ih]

theorem spansGo_append (data : List Nat) : ∀ (ps qs : List Nat) (prev : Nat),
    spansGo data prev (ps ++ qs) =
      spansGo data prev ps ++ spansGo data (prevAfter prev ps) qs := by
  intro ps
  induction ps with
  | nil => intro qs prev; rfl
  | cons p ps ih =>
    intro qs prev
    simp only [List.cons_append, spansGo, prevAfter, List.append_eq]
    rw [ih]

theorem prevAfter_append : ∀ (ps qs : List Nat) (prev : Nat),
    prevAfter prev (ps ++ qs) = prevAfter (prevAfter prev ps) qs := by
  intro ps
  induction ps with
  | nil => intro qs prev; rfl
  | cons p ps ih =>
    intro qs prev
    simp only [List.cons_append, prevAfter, List.append_eq]
    rw [ih]

theorem spansGo_length (data : List Nat) : ∀ (ps : List Nat) (prev : Nat),
    (spansGo data prev ps).length = ps.length := by
  intro ps
  induction ps with
  | nil => intro prev; rfl
  | cons p ps ih => intro prev; simp only [spansGo, List.length_cons, ih]

theorem extractAllGo_spec (data : List Nat) : ∀ (ms : List Nat) (prev pos : Nat),
    extractAllGo data ms prev pos = spansGo data prev (idxAllGo ms pos) := by
  intro ms
  induction ms with
  | nil => intro prev pos; rfl
  | cons m ms ih =>
    intro prev pos
    simp only [extractAllGo, idxAllGo, extract_fields, extractGo_spec, spansGo_append, ih]

/-! ## The mask sequence covers exactly the buffer's delimiter positions -/

theorem trueIdxList_length : ∀ (bs : List Bool),
    (trueIdxList bs).length = bs.count true := by
  intro bs
  induction bs with
  | nil => rfl
  | cons b bs ih =>
    rcases b <;> simp [trueIdxList, ih, List.count_cons]

theorem trueIdxList_all_false : ∀ (bs : List Bool), (∀ b ∈ bs, b = false) →
    trueIdxList bs = [] := by
  intro bs
  induction bs with
  | nil => intro _; rfl
  | cons b bs ih =>
    intro h
    have hb : b = false := h b (by simp)
    subst hb
    simp [trueIdxList, ih (fun x hx => h x (by simp [hx]))]

theorem trueIdxList_append : ∀ (xs ys : List Bool),
    trueIdxList (xs ++ ys) =
      trueIdxList xs ++ (trueIdxList ys).map (· + xs.length) := by
  intro xs
  induction xs with
  | nil => intro ys; simp [trueIdxList]
  | cons x xs ih =>
    intro ys
    have hmap : ∀ (l : List Nat) (k : Nat),
        (l.map (· + k)).map (· + 1) = l.map (· + (k + 1)) := by
      intro l k
      rw [List.map_map]
      apply List.map_congr_left
      intro a _
      simp [Function.comp]
      omega
    rcases x with _ | _
    · simp only [List.cons_append, trueIdxList, Bool.false_eq_true, if_false, ih,
        List.map_append, List.length_cons, hmap, List.append_eq]
    · simp only [List.cons_append, trueIdxList, if_true, ih, List.map_append,
        List.length_cons, hmap, List.cons.injEq, true_and, List.append_eq]

theorem delimIdx_append (a b : List Nat) :
    delimIdx (a ++ b) = delimIdx a ++ (delimIdx b).map (· + a.length) := by
  unfold delimIdx
  rw [List.map_append, trueIdxList_append]
  simp

theorem delimIdx_length (data : List Nat) :
    (delimIdx data).length = data.countP isDelim := by
  unfold delimIdx
  rw [trueIdxList_length]
  induction data with
  | nil => rfl
  | cons b bs ih =>
    rcases hb : isDelim b <;>
      simp [List.count_cons, List.countP_cons, hb, ih]

theorem asChunksGo_fuel : ∀ (f g : Nat) (l : List Nat), l.length ≤ f → l.length ≤ g →
    asChunksGo f l = asChunksGo g l := by
  intro f
  induction f with
  | zero =>
    intro g l hf _
    have hl : l = [] := List.length_eq_zero.mp (by omega)
    subst hl
    cases g with
    | zero => rfl
    | succ g => simp [asChunksGo]
  | succ f ih =>
    intro g l hf hg
    by_cases h64 : l.length < 64
    · cases g with
      | zero =>
        have hl : l = [] := List.length_eq_zero.mp (by omega)
        subst hl; simp [asChunksGo]
      | succ g => simp [asChunksGo, h64]
    · obtain ⟨g, rfl⟩ : ∃ g', g = g' + 1 := ⟨g - 1, by omega⟩
      simp only [asChunksGo, if_neg h64]
      have hd : (l.drop 64).length ≤ f := by simp; omega
      have hd' : (l.drop 64).length ≤ g := by simp; omega
      rw [ih g (l.drop 64) hd hd']

theorem asChunks_small (l : List Nat) (h : l.length < 64) : asChunks l = ([], l) := by
  unfold asChunks
  cases hl : l.length with
  | zero => rfl
  | succ n =>
    simp [asChunksGo, hl, h, hl ▸ h]

theorem asChunks_big (l : List Nat) (h : 64 ≤ l.length) :
    asChunks l = (l.take 64 :: (asChunks (l.drop 64)).1, (asChunks (l.drop 64)).2) := by
  unfold asChunks
  obtain ⟨n, hn⟩ : ∃ n, l.length = n + 1 := ⟨l.length - 1, by omega⟩
  rw [hn]
  simp only [asChunksGo, if_neg (by omega : ¬l.length < 64)]
  rw [asChunksGo_fuel n (l.drop 64).length (l.drop 64) (by simp; omega) (by simp)]

theorem masksOf_small (data : List Nat) (h : data.length < 64) :
    masksOf data = [maskOf (loadOrDefault data)] := by
  unfold masksOf
  rw [asChunks_small data h]
  rfl

theorem masksOf_big (data : List Nat) (h : 64 ≤ data.length) :
    masksOf data = maskOf (data.take 64) :: masksOf (data.drop 64) := by
  unfold masksOf
  rw [asChunks_big data h]
  rfl

theorem pc_maskOf_eq_count (chunk : List Nat) (h : chunk.length ≤ 64) :
    pc (maskOf chunk) = (chunk.map isDelim).count true := by
  unfold pc maskOf
  exact pcGo_toBitmask 64 (chunk.map isDelim) (by simpa using h)

theorem maskIdx_maskOf (chunk : List Nat) (h : chunk.length ≤ 64) :
    maskIdx (pc (maskOf chunk)) (maskOf chunk) = trueIdxList (chunk.map isDelim) := by
  rw [pc_maskOf_eq_count chunk h]
  exact maskIdx_toBitmask (chunk.map isDelim) (by simpa using h)

theorem idxAllGo_masksOf_bounded : ∀ (n : Nat) (data : List Nat), data.length ≤ n →
    ∀ (pos : Nat), idxAllGo (masksOf data) pos = (delimIdx data).map (pos + ·) := by
  intro n
  induction n with
  | zero =>
    intro data hlen pos
    have hd : data = [] := List.length_eq_zero.mp (by omega)
    subst hd
    have h1 : masksOf [] = [0] := by decide
    have h2 : maskIdx (pc 0) 0 = [] := by decide
    rw [h1]
    simp [idxAllGo, h2, delimIdx, trueIdxList]
  | succ n ih =>
    intro data hlen pos
    by_cases h64 : data.length < 64
    · rw [masksOf_small data h64]
      simp only [idxAllGo, List.append_nil]
      have hlen : (loadOrDefault data).length ≤ 64 := by
        unfold loadOrDefault; simp; omega
      rw [maskIdx_maskOf _ hlen]
      unfold loadOrDefault delimIdx
      rw [List.map_append, trueIdxList_append]
      have hpad : trueIdxList ((List.replicate (64 - data.length) 0).map isDelim) = [] := by
        apply trueIdxList_all_false
        intro b hb
        simp only [List.mem_map, List.mem_replicate] at hb
        obtain ⟨a, ⟨_, ha⟩, hb⟩ := hb
        subst ha; subst hb; rfl
      rw [hpad]
      simp
    · rw [masksOf_big data (by omega)]
      simp only [idxAllGo]
      have htake : (data.take 64).length ≤ 64 := by simp
      rw [maskIdx_maskOf _ htake]
      rw [ih (data.drop 64) (by simp; omega) (pos + 64)]
      conv_rhs => rw [show data = data.take 64 ++ data.drop 64 from (List.take_append_drop 64 data).symm]
      rw [delimIdx_append]
      have h64' : (data.take 64).length = 64 := by simp; omega
      rw [List.map_append, List.map_map]
      unfold delimIdx
      rw [h64']
      congr 1
      apply List.map_congr_left
      intro a _
      simp [Function.comp]
      omega

theorem idxAllGo_masksOf (data : List Nat) (pos : Nat) :
    idxAllGo (masksOf data) pos = (delimIdx data).map (pos + ·) :=
  idxAllGo_masksOf_bounded data.length data (le_refl _) pos

/-- The complete field stream of the `parse` loop on a buffer. -/
def parseFields (data : List Nat) : List Span := extractAllGo data (masksOf data) 0 0

theorem parseFields_eq_refFields (data : List Nat) : parseFields data = refFields data := by
  unfold parseFields refFields
  rw [extractAllGo_spec, idxAllGo_masksOf]
  congr 1
  conv_rhs => rw [← List.map_id (delimIdx data)]
  apply List.map_congr_left
  intro a _
  simp

/-! ## The fill/drain loop in closed form -/

theorem oddTail_length {α : Type} (l : List α) : (oddTail l).length = l.length % 2 := by
  unfold oddTail
  by_cases h : l.length % 2 = 1 <;> simp [h] <;> omega

theorem oddTail_cons2 {α : Type} (a b : α) (t : List α) :
    oddTail (a :: b :: t) = oddTail t := by
  unfold oddTail
  have hl : (a :: b :: t).length = t.length + 2 := by simp
  by_cases h : t.length % 2 = 1
  · rw [hl]
    simp only [show (t.length + 2) % 2 = 1 by omega, h, if_true]
    rw [show t.length + 2 - 1 = t.length - 1 + 2 by omega]
    rw [List.drop_succ_cons, List.drop_succ_cons]
  · rw [hl]
    simp only [show ¬((t.length + 2) % 2 = 1) by omega, h, if_false]

theorem pairUp_append {α : Type} : ∀ (xs ys : List α),
    pairUp (xs ++ ys) = pairUp xs ++ pairUp (oddTail xs ++ ys)
  | [], ys => by simp [pairUp, oddTail]
  | [a], ys => by simp [pairUp, oddTail]
  | a :: b :: t, ys => by
    simp only [List.cons_append, pairUp, oddTail_cons2, List.append_eq]
    rw [pairUp_append t ys]

theorem drainMap_append (m : WMap) (xs ys : List Span) :
    drainMap m (xs ++ ys) = drainMap (drainMap m xs) (oddTail xs ++ ys) := by
  unfold drainMap
  rw [pairUp_append, List.foldl_append]

theorem parseChunks_spec (T : Nat) (data : List Nat) (ms : List Nat) :
    ∀ (prev pos : Nat) (buf : List Span) (m : WMap),
    parseChunks T data ms prev pos buf m =
      if (buf ++ extractAllGo data ms prev pos).length % 2 = 0
      then some (drainMap m (buf ++ extractAllGo data ms prev pos))
      else none := by
  induction ms with
  | nil => intro prev pos buf m; simp [parseChunks, extractAllGo]
  | cons mask ms ih =>
    intro prev pos buf m
    simp only [parseChunks, extractAllGo]
    split
    · rw [ih]
      rw [← List.append_assoc]
      have hpar : (oddTail (buf ++ (extract_fields data prev pos mask).1) ++
            extractAllGo data ms (extract_fields data prev pos mask).2 (pos + 64)).length % 2 =
          ((buf ++ (extract_fields data prev pos mask).1) ++
            extractAllGo data ms (extract_fields data prev pos mask).2 (pos + 64)).length % 2 := by
        simp [oddTail_length]
        omega
      rw [hpar, ← drainMap_append]
    · rw [ih]
      rw [← List.append_assoc]

theorem parseGen_spec (T : Nat) (data : List Nat) :
    parseChunks T data (masksOf data) 0 0 [] [] =
      if (refFields data).length % 2 = 0
      then some (drainMap [] (refFields data))
      else none := by
  rw [parseChunks_spec]
  simp only [List.nil_append]
  rw [show extractAllGo data (masksOf data) 0 0 = refFields data from
    (parseFields_eq_refFields data)]

theorem parseRs_spec (data : List Nat) :
    parseRs data =
      if (refFields data).length % 2 = 0
      then some (drainMap [] (refFields data))
      else none := parseGen_spec 96 data

theorem parseMain_spec (data : List Nat) :
    parseMain data =
      if (refFields data).length % 2 = 0
      then some (drainMap [] (refFields data))
      else none := parseGen_spec 32 data

theorem refFields_length (data : List Nat) :
    (refFields data).length = data.countP isDelim := by
  unfold refFields
  rw [spansGo_length, delimIdx_length]


/-! ## Fields of a well-formed buffer -/

theorem isDelim_eq_false (b : Nat) (h1 : b ≠ 10) (h2 : b ≠ 59) : isDelim b = false := by
  unfold isDelim
  simp [h1, h2]

theorem tempGrammar_no_delim (t : Span) (h : TempGrammar t) :
    ∀ b ∈ t, isDelim b = false := by
  obtain ⟨d1, h1, d2, h2, d3, h3, hsh⟩ := h
  rcases hsh with rfl | rfl | rfl | rfl
  · intro b hb
    simp only [List.mem_cons, List.not_mem_nil, or_false] at hb
    obtain rfl | rfl | rfl := hb <;> (apply isDelim_eq_false <;> omega)
  · intro b hb
    simp only [List.mem_cons, List.not_mem_nil, or_false] at hb
    obtain rfl | rfl | rfl | rfl := hb <;> (apply isDelim_eq_false <;> omega)
  · intro b hb
    simp only [List.mem_cons, List.not_mem_nil, or_false] at hb
    obtain rfl | rfl | rfl | rfl := hb <;> (apply isDelim_eq_false <;> omega)
  · intro b hb
    simp only [List.mem_cons, List.not_mem_nil, or_false] at hb
    obtain rfl | rfl | rfl | rfl | rfl := hb <;> (apply isDelim_eq_false <;> omega)

theorem delimIdx_of_no_delim (l : List Nat) (h : ∀ b ∈ l, isDelim b = false) :
    delimIdx l = [] := by
  apply trueIdxList_all_false
  intro b hb
  simp only [List.mem_map] at hb
  obtain ⟨a, ha, rfl⟩ := hb
  exact h a ha

theorem delimIdx_cons (b : Nat) (l : List Nat) :
    delimIdx (b :: l) =
      if isDelim b then 0 :: (delimIdx l).map (· + 1) else (delimIdx l).map (· + 1) := by
  unfold delimIdx
  rcases hb : isDelim b <;> simp [trueIdxList, hb]

theorem delimIdx_encodeRec (r : Span × Span) (hr : ValidRec r) :
    delimIdx (encodeRec r) =
      [r.1.length, r.1.length + (r.2.length + 1)] := by
  obtain ⟨hne, hs, ht⟩ := hr
  unfold encodeRec
  rw [delimIdx_append, delimIdx_of_no_delim r.1 hs, delimIdx_cons]
  rw [delimIdx_append, delimIdx_of_no_delim r.2 (tempGrammar_no_delim r.2 ht)]
  have h10 : delimIdx [10] = [0] := by decide
  rw [h10, if_pos (by decide : isDelim 59 = true)]
  simp only [List.nil_append, List.map_cons, List.map_nil, List.map_map, Function.comp,
    List.cons.injEq, and_true]
  constructor <;> omega

theorem spansGo_shift (a b : List Nat) : ∀ (ps : List Nat) (prev : Nat),
    spansGo (a ++ b) (a.length + prev) (ps.map (· + a.length)) = spansGo b prev ps := by
  intro ps
  induction ps with
  | nil => intro prev; rfl
  | cons p ps ih =>
    intro prev
    simp only [List.map_cons, spansGo, List.cons.injEq]
    constructor
    · unfold subSpan
      rw [List.drop_append prev, show p + a.length - (a.length + prev) = p - prev by omega]
    · rw [show p + a.length + 1 = a.length + (p + 1) by omega]
      exact ih (p + 1)

theorem encodeRecs_cons (r : Span × Span) (rs : List (Span × Span)) :
    encodeRecs (r :: rs) = encodeRec r ++ encodeRecs rs := by
  unfold encodeRecs
  simp

theorem refFields_encodeRecs : ∀ (rs : List (Span × Span)), (∀ r ∈ rs, ValidRec r) →
    refFields (encodeRecs rs) = (rs.map (fun r => [r.1, r.2])).flatten := by
  intro rs
  induction rs with
  | nil => intro _; rfl
  | cons r rs ih =>
    intro h
    have hr : ValidRec r := h r (by simp)
    have hrs : ∀ x ∈ rs, ValidRec x := fun x hx => h x (by simp [hx])
    unfold refFields
    rw [encodeRecs_cons, delimIdx_append, delimIdx_encodeRec r hr, spansGo_append]
    have hlenc : (encodeRec r).length = r.1.length + (r.2.length + 1) + 1 := by
      unfold encodeRec
      simp only [List.length_append, List.length_cons, List.length_nil]
      omega
    have h1 : spansGo (encodeRec r ++ encodeRecs rs) 0
        [r.1.length, r.1.length + (r.2.length + 1)] = [r.1, r.2] := by
      simp only [spansGo, List.cons.injEq, and_true]
      constructor
      · unfold subSpan encodeRec
        simp only [List.drop_zero, Nat.sub_zero, List.append_assoc]
        rw [List.take_left]
      · unfold subSpan encodeRec
        rw [show r.1.length + (r.2.length + 1) - (r.1.length + 1) = r.2.length by omega]
        have hassoc : (r.1 ++ 59 :: (r.2 ++ [10])) ++ encodeRecs rs =
            (r.1 ++ [59]) ++ (r.2 ++ (10 :: encodeRecs rs)) := by simp
        rw [hassoc, show r.1.length + 1 = (r.1 ++ [59]).length + 0 by simp,
          List.drop_append 0, List.drop_zero, List.take_left]
    have h2 : prevAfter 0 [r.1.length, r.1.length + (r.2.length + 1)] =
        (encodeRec r).length := by
      simp only [prevAfter, hlenc]
    have h3 : spansGo (encodeRec r ++ encodeRecs rs) ((encodeRec r).length)
        ((delimIdx (encodeRecs rs)).map (· + (encodeRec r).length)) =
          refFields (encodeRecs rs) := by
      unfold refFields
      rw [show (encodeRec r).length = (encodeRec r).length + 0 by omega]
      exact spansGo_shift (encodeRec r) (encodeRecs rs) (delimIdx (encodeRecs rs)) 0
    rw [h1, h2, h3, ih hrs]
    simp

theorem flatten_pairs_length (rs : List (Span × Span)) :
    ((rs.map (fun r => [r.1, r.2])).flatten).length = 2 * rs.length := by
  induction rs with
  | nil => rfl
  | cons r rs ih => simp [ih]; omega

theorem pairUp_pairs (rs : List (Span × Span)) :
    pairUp ((rs.map (fun r => [r.1, r.2])).flatten) = rs := by
  induction rs with
  | nil => rfl
  | cons r rs ih =>
    simp only [List.map_cons, List.flatten_cons, List.cons_append, List.nil_append, pairUp,
      List.append_eq, List.nil_append, ih]

/-- Master theorem: on a well-formed buffer (a concatenation of valid
records) the fill/drain loop terminates for any threshold and produces
exactly the sequential record-by-record aggregation `refMap`. -/
theorem parseChunks_encodeRecs (T : Nat) (rs : List (Span × Span))
    (h : ∀ r ∈ rs, ValidRec r) :
    parseChunks T (encodeRecs rs) (masksOf (encodeRecs rs)) 0 0 [] [] =
      some (refMap rs) := by
  rw [parseGen_spec, refFields_encodeRecs rs h]
  have hlen : ((rs.map (fun r => [r.1, r.2])).flatten).length % 2 = 0 := by
    rw [flatten_pairs_length]; omega
  rw [if_pos hlen]
  unfold drainMap refMap
  rw [pairUp_pairs]

theorem parseRs_encodeRecs (rs : List (Span × Span)) (h : ∀ r ∈ rs, ValidRec r) :
    parseRs (encodeRecs rs) = some (refMap rs) := parseChunks_encodeRecs 96 rs h

theorem parseMain_encodeRecs (rs : List (Span × Span)) (h : ∀ r ∈ rs, ValidRec r) :
    parseMain (encodeRecs rs) = some (refMap rs) := parseChunks_encodeRecs 32 rs h

/-! ## Lookup characterisation of the aggregation -/

/-- The observation step on an optional table entry. -/
def obsOpt (o : Option Weather) (v : Int) : Option Weather :=
  some (match o with | none => initW v | some w => updW w v)

/-- Fold a value list into an optional table entry. -/
def aggVals (o : Option Weather) (l : List Int) : Option Weather := l.foldl obsOpt o

/-- The parsed values observed for one station key, in record order. -/
def valsFor (k : Span) (rs : List (Span × Span)) : List Int :=
  (rs.filter (fun r => decide (r.1 = k))).map (fun r => parse_temp r.2)

/-- The combine rule lifted to optional entries (absent keys insert). -/
def mergeO : Option Weather → Option Weather → Option Weather
  | none, o => o
  | some w, none => some w
  | some w, some u => some (combineW w u)

theorem i64wrap_add_left (a b : Int) : i64wrap (i64wrap a + b) = i64wrap (a + b) := by
  unfold i64wrap; omega

theorem i64wrap_add_right (a b : Int) : i64wrap (a + i64wrap b) = i64wrap (a + b) := by
  unfold i64wrap; omega

theorem i64wrap_range (x : Int) : -(2 ^ 63) ≤ i64wrap x ∧ i64wrap x < 2 ^ 63 := by
  unfold i64wrap; constructor <;> omega

theorem i64wrap_id (x : Int) (h1 : -(2 ^ 63) ≤ x) (h2 : x < 2 ^ 63) : i64wrap x = x := by
  unfold i64wrap; omega

theorem updW_eq_combineW_initW (w : Weather) (v : Int) :
    updW w v = combineW w (initW v) := by
  unfold updW combineW initW
  rw [i64wrap_add_right]

theorem combineW_assoc (a b c : Weather) :
    combineW (combineW a b) c = combineW a (combineW b c) := by
  unfold combineW u32wrap
  simp only [Weather.mk.injEq]
  refine ⟨by omega, min_assoc _ _ _, max_assoc _ _ _, ?_⟩
  rw [i64wrap_add_left, i64wrap_add_right, Int.add_assoc]

theorem combineW_comm (a b : Weather) : combineW a b = combineW b a := by
  unfold combineW
  simp only [Weather.mk.injEq]
  exact ⟨by rw [Nat.add_comm], min_comm _ _, max_comm _ _, by rw [Int.add_comm]⟩

theorem mergeO_assoc (a b c : Option Weather) :
    mergeO (mergeO a b) c = mergeO a (mergeO b c) := by
  rcases a <;> rcases b <;> rcases c <;> simp [mergeO, combineW_assoc]

theorem mergeO_comm (a b : Option Weather) : mergeO a b = mergeO b a := by
  rcases a <;> rcases b <;> simp [mergeO, combineW_comm]

theorem lookupW_observe (m : WMap) (ki : Span) (v : Int) (k : Span) :
    lookupW (observe m ki v) k =
      if ki = k then obsOpt (lookupW m k) v else lookupW m k := by
  induction m with
  | nil =>
    by_cases h : ki = k <;> simp [observe, lookupW, h, obsOpt]
  | cons kw rest ih =>
    obtain ⟨k0, w0⟩ := kw
    by_cases h0 : k0 = ki
    · subst h0
      simp only [observe, if_pos rfl]
      by_cases hk : k0 = k
      · subst hk
        simp [lookupW, obsOpt]
      · simp [lookupW, hk]
    · simp only [observe, if_neg h0]
      by_cases hk : k0 = k
      · subst hk
        have hik : ¬(ki = k0) := fun hik => h0 hik.symm
        simp [lookupW, hik]
      · simp [lookupW, hk, ih]

theorem lookupW_foldl_obsPair (rs : List (Span × Span)) : ∀ (m : WMap) (k : Span),
    lookupW (rs.foldl obsPair m) k = aggVals (lookupW m k) (valsFor k rs) := by
  induction rs with
  | nil => intro m k; rfl
  | cons r rs ih =>
    intro m k
    simp only [List.foldl_cons]
    rw [ih]
    unfold obsPair
    by_cases h : r.1 = k
    · rw [lookupW_observe, if_pos h]
      unfold valsFor aggVals
      simp [List.filter_cons, h]
    · rw [lookupW_observe, if_neg h]
      unfold valsFor aggVals
      simp [List.filter_cons, h]

theorem aggVals_mergeO (l : List Int) : ∀ (o : Option Weather),
    aggVals o l = mergeO o (aggVals none l) := by
  induction l with
  | nil => intro o; rcases o <;> rfl
  | cons v vs ih =>
    intro o
    show aggVals (obsOpt o v) vs = mergeO o (aggVals (obsOpt none v) vs)
    rw [ih (obsOpt o v), ih (obsOpt none v)]
    rcases o with _ | w
    · rfl
    · show mergeO (some (updW w v)) (aggVals none vs) =
        mergeO (some w) (mergeO (some (initW v)) (aggVals none vs))
      rcases hA : aggVals none vs with _ | u
      · simp [mergeO, updW_eq_combineW_initW]
      · simp [mergeO, updW_eq_combineW_initW, combineW_assoc]

theorem aggVals_append (o : Option Weather) (l1 l2 : List Int) :
    aggVals o (l1 ++ l2) = aggVals (aggVals o l1) l2 := by
  unfold aggVals
  rw [List.foldl_append]

theorem aggVals_some_spec (vs : List Int) : ∀ (w : Weather), w.total < 2 ^ 32 →
    -(2 ^ 63) ≤ w.sum → w.sum < 2 ^ 63 →
    aggVals (some w) vs = some ⟨(w.total + vs.length) % 2 ^ 32,
      vs.foldl min w.min, vs.foldl max w.max, i64wrap (w.sum + vs.sum)⟩ := by
  induction vs with
  | nil =>
    intro w h1 h2 h3
    obtain ⟨t, mn, mx, sm⟩ := w
    apply congrArg some
    have ht : (t + ([] : List Int).length) % 2 ^ 32 = t := by
      simp only [List.length_nil]
      simp at h1
      omega
    have hs : i64wrap (sm + ([] : List Int).sum) = sm := by
      simp only [List.sum_nil, Int.add_zero]
      exact i64wrap_id sm (by simpa using h2) (by simpa using h3)
    show Weather.mk t mn mx sm = _
    rw [List.foldl_nil, List.foldl_nil, ht, hs]
  | cons v vs ih =>
    intro w h1 h2 h3
    show aggVals (some (updW w v)) vs = _
    rw [ih (updW w v) (by unfold updW u32wrap; simp; omega)
      (by show -(2 ^ 63) ≤ i64wrap (w.sum + v); exact (i64wrap_range _).1)
      (by show i64wrap (w.sum + v) < 2 ^ 63; exact (i64wrap_range _).2)]
    simp only [Option.some.injEq, Weather.mk.injEq, List.length_cons, List.foldl_cons,
      List.sum_cons]
    refine ⟨?_, rfl, rfl, ?_⟩
    · show (u32wrap (w.total + 1) + vs.length) % 2 ^ 32 = _
      unfold u32wrap
      omega
    · show i64wrap (i64wrap (w.sum + v) + vs.sum) = _
      rw [i64wrap_add_left, Int.add_assoc]

theorem foldl_min_le_init (vs : List Int) : ∀ a, vs.foldl min a ≤ a := by
  induction vs with
  | nil => intro a; exact le_refl a
  | cons v vs ih =>
    intro a
    exact le_trans (ih (min a v)) (min_le_left a v)

theorem foldl_min_le_mem (vs : List Int) : ∀ a, ∀ v ∈ vs, vs.foldl min a ≤ v := by
  induction vs with
  | nil => intro a v hv; simp at hv
  | cons u vs ih =>
    intro a v hv
    rcases List.mem_cons.mp hv with rfl | hv
    · exact le_trans (foldl_min_le_init vs (min a v)) (min_le_right a v)
    · exact ih (min a u) v hv

theorem foldl_min_mem (vs : List Int) : ∀ a, vs.foldl min a = a ∨ vs.foldl min a ∈ vs := by
  induction vs with
  | nil => intro a; exact Or.inl rfl
  | cons u vs ih =>
    intro a
    rcases ih (min a u) with h | h
    · rcases min_choice a u with hc | hc
      · exact Or.inl (by rw [List.foldl_cons, h, hc])
      · exact Or.inr (by rw [List.foldl_cons, h, hc]; simp)
    · exact Or.inr (by simp [List.foldl_cons]; right; exact h)

theorem foldl_max_ge_init (vs : List Int) : ∀ a, a ≤ vs.foldl max a := by
  induction vs with
  | nil => intro a; exact le_refl a
  | cons v vs ih =>
    intro a
    exact le_trans (le_max_left a v) (ih (max a v))

theorem foldl_max_ge_mem (vs : List Int) : ∀ a, ∀ v ∈ vs, v ≤ vs.foldl max a := by
  induction vs with
  | nil => intro a v hv; simp at hv
  | cons u vs ih =>
    intro a v hv
    rcases List.mem_cons.mp hv with rfl | hv
    · exact le_trans (le_max_right a v) (foldl_max_ge_init vs (max a v))
    · exact ih (max a u) v hv

theorem foldl_max_mem (vs : List Int) : ∀ a, vs.foldl max a = a ∨ vs.foldl max a ∈ vs := by
  induction vs with
  | nil => intro a; exact Or.inl rfl
  | cons u vs ih =>
    intro a
    rcases ih (max a u) with h | h
    · rcases max_choice a u with hc | hc
      · exact Or.inl (by rw [List.foldl_cons, h, hc])
      · exact Or.inr (by rw [List.foldl_cons, h, hc]; simp)
    · exact Or.inr (by simp [List.foldl_cons]; right; exact h)

/-! ## Key sets and table merging -/

theorem observe_keys (m : WMap) (ki : Span) (v : Int) :
    (observe m ki v).map Prod.fst =
      if ki ∈ m.map Prod.fst then m.map Prod.fst else m.map Prod.fst ++ [ki] := by
  induction m with
  | nil => simp [observe]
  | cons kw rest ih =>
    obtain ⟨k0, w0⟩ := kw
    by_cases h0 : k0 = ki
    · subst h0
      simp [observe]
    · simp only [observe, if_neg h0, List.map_cons, ih]
      have hne : ¬(ki = k0) := fun h => h0 h.symm
      by_cases hmem : ki ∈ rest.map Prod.fst
      · simp [hmem, hne]
      · simp [hmem, hne]

theorem observe_keys_nodup (m : WMap) (ki : Span) (v : Int)
    (h : (m.map Prod.fst).Nodup) : ((observe m ki v).map Prod.fst).Nodup := by
  rw [observe_keys]
  by_cases hmem : ki ∈ m.map Prod.fst
  · simpa [hmem] using h
  · simp only [hmem, if_false]
    simp [List.nodup_append, h, hmem]

theorem foldl_obsPair_keys_nodup (rs : List (Span × Span)) : ∀ (m : WMap),
    (m.map Prod.fst).Nodup → (((rs.foldl obsPair m)).map Prod.fst).Nodup := by
  induction rs with
  | nil => intro m h; exact h
  | cons r rs ih =>
    intro m h
    exact ih (obsPair m r) (observe_keys_nodup m r.1 (parse_temp r.2) h)

theorem refMap_keys_nodup (rs : List (Span × Span)) :
    ((refMap rs).map Prod.fst).Nodup :=
  foldl_obsPair_keys_nodup rs [] (by simp)

theorem lookupW_eq_none (m : WMap) (k : Span) (h : k ∉ m.map Prod.fst) :
    lookupW m k = none := by
  induction m with
  | nil => rfl
  | cons kw rest ih =>
    obtain ⟨k0, w0⟩ := kw
    simp only [List.map_cons, List.mem_cons] at h
    push_neg at h
    simp only [lookupW, if_neg (fun he : k0 = k => h.1 he.symm)]
    exact ih h.2

theorem lookupW_insertCombine (m : WMap) (ki : Span) (w : Weather) (k : Span) :
    lookupW (insertCombine m ki w) k =
      if ki = k then mergeO (lookupW m k) (some w) else lookupW m k := by
  induction m with
  | nil =>
    by_cases h : ki = k <;> simp [insertCombine, lookupW, h, mergeO]
  | cons kw rest ih =>
    obtain ⟨k0, w0⟩ := kw
    by_cases h0 : k0 = ki
    · subst h0
      simp only [insertCombine, if_pos rfl]
      by_cases hk : k0 = k
      · subst hk
        simp [lookupW, mergeO]
      · simp [lookupW, hk]
    · simp only [insertCombine, if_neg h0]
      by_cases hk : k0 = k
      · subst hk
        have hik : ¬(ki = k0) := fun hik => h0 hik.symm
        simp [lookupW, hik]
      · simp [lookupW, hk, ih]

theorem lookupW_mergeTables (b : WMap) : ∀ (a : WMap),
    ((b.map Prod.fst).Nodup) → ∀ (k : Span),
    lookupW (mergeTables a b) k = mergeO (lookupW a k) (lookupW b k) := by
  induction b with
  | nil =>
    intro a _ k
    show lookupW a k = mergeO (lookupW a k) none
    rcases lookupW a k <;> rfl
  | cons kw rest ih =>
    intro a hnd k
    obtain ⟨k0, w0⟩ := kw
    have hnd0 : k0 ∉ rest.map Prod.fst := by
      simp only [List.map_cons, List.nodup_cons] at hnd
      exact hnd.1
    have hndr : (rest.map Prod.fst).Nodup := by
      simp only [List.map_cons, List.nodup_cons] at hnd
      exact hnd.2
    show lookupW (mergeTables (insertCombine a k0 w0) rest) k = _
    rw [ih (insertCombine a k0 w0) hndr k, lookupW_insertCombine]
    by_cases hk : k0 = k
    · subst hk
      rw [lookupW_eq_none rest k0 hnd0]
      simp only [lookupW, if_pos rfl]
      rcases lookupW a k0 <;> simp [mergeO]
    · simp only [if_neg hk, lookupW, if_neg hk]

/-! ## Order independence of the observation step -/

theorem updW_right_comm (w : Weather) (v v' : Int) :
    updW (updW w v) v' = updW (updW w v') v := by
  unfold updW u32wrap
  dsimp only
  simp only [Weather.mk.injEq]
  refine ⟨trivial, min_right_comm _ _ _, ?_, ?_⟩
  · rw [max_assoc, max_comm v v', ← max_assoc]
  · rw [i64wrap_add_left, i64wrap_add_left, Int.add_assoc, Int.add_assoc,
      Int.add_comm v v']

theorem obsOpt_right_comm (o : Option Weather) (v v' : Int) :
    obsOpt (obsOpt o v) v' = obsOpt (obsOpt o v') v := by
  rcases o with _ | w
  · show some (updW (initW v) v') = some (updW (initW v') v)
    unfold updW initW u32wrap
    dsimp only
    simp only [Option.some.injEq, Weather.mk.injEq, true_and]
    refine ⟨min_comm _ _, max_comm _ _, ?_⟩
    rw [i64wrap_add_left, i64wrap_add_left, Int.add_comm]
  · show some (updW (updW w v) v') = some (updW (updW w v') v)
    rw [updW_right_comm]

instance : RightCommutative obsOpt := ⟨obsOpt_right_comm⟩

theorem valsFor_perm (k : Span) (rs1 rs2 : List (Span × Span)) (h : rs1.Perm rs2) :
    (valsFor k rs1).Perm (valsFor k rs2) :=
  (h.filter _).map _

theorem aggVals_perm (o : Option Weather) (l1 l2 : List Int) (h : l1.Perm l2) :
    aggVals o l1 = aggVals o l2 :=
  h.foldl_eq o

/-- C5: accumulating the per-station observe/update step over any
permutation of the same well-formed records yields identical
(total, min, max, sum) statistics for every station. -/
theorem c5_observe_order_independent (rs1 rs2 : List (Span × Span))
    (hv : ∀ r ∈ rs1, ValidRec r) (hp : rs1.Perm rs2) (k : Span) :
    lookupW (refMap rs1) k = lookupW (refMap rs2) k := by
  unfold refMap
  rw [lookupW_foldl_obsPair, lookupW_foldl_obsPair]
  exact aggVals_perm _ _ _ (valsFor_perm k rs1 rs2 hp)

/-- Witness for C5 at a concrete two-record permutation. -/
theorem c5_observe_order_independent_witness :
    (∀ r ∈ [(([97], strBytes "1.0") : Span × Span), ([98], strBytes "2.5")], ValidRec r) ∧
    lookupW (refMap [(([97], strBytes "1.0") : Span × Span), ([98], strBytes "2.5")]) [97] =
      lookupW (refMap [(([98], strBytes "2.5") : Span × Span), ([97], strBytes "1.0")]) [97] :=
  ⟨by decide, c5_observe_order_independent _ _ (by decide) (by decide) [97]⟩

/-! ## Bounds on grammar values -/

theorem parse_temp_grammar_bound (t : Span) (h : TempGrammar t) :
    -999 ≤ parse_temp t ∧ parse_temp t ≤ 999 := by
  obtain ⟨d1, h1, d2, h2, d3, h3, hsh⟩ := h
  rcases hsh with rfl | rfl | rfl | rfl
  · rw [(parse_temp_digits d1 h1 d2 h2 d3 h3).1]; constructor <;> omega
  · rw [(parse_temp_digits d1 h1 d2 h2 d3 h3).2.1]; constructor <;> omega
  · rw [(parse_temp_digits d1 h1 d2 h2 d3 h3).2.2.1]; constructor <;> omega
  · rw [(parse_temp_digits d1 h1 d2 h2 d3 h3).2.2.2]; constructor <;> omega

theorem valsFor_bound (k : Span) (rs : List (Span × Span)) (hv : ∀ r ∈ rs, ValidRec r) :
    ∀ v ∈ valsFor k rs, -999 ≤ v ∧ v ≤ 999 := by
  intro v hvin
  unfold valsFor at hvin
  simp only [List.mem_map, List.mem_filter] at hvin
  obtain ⟨r, ⟨hr, _⟩, rfl⟩ := hvin
  exact parse_temp_grammar_bound r.2 (hv r hr).2.2

theorem sum_bound (vs : List Int) (h : ∀ v ∈ vs, -999 ≤ v ∧ v ≤ 999) :
    -999 * vs.length ≤ vs.sum ∧ vs.sum ≤ 999 * vs.length := by
  induction vs with
  | nil => simp
  | cons v vs ih =>
    have hv := h v (by simp)
    have hrest := ih (fun x hx => h x (by simp [hx]))
    simp only [List.sum_cons, List.length_cons]
    push_cast
    constructor <;> omega

/-- C4 (amended): after `parse` processes a well-formed input in which
every station has fewer than `2^32` observations, each table entry's `min`
and `max` bound all observed values and are themselves observed, `sum` is
the exact integer sum of the observed values, and `total` is the exact
observation count.  (Without the count bound the `u32` counter wraps; see
the counterexample.) -/
theorem c4_table_invariants (rs : List (Span × Span)) (hv : ∀ r ∈ rs, ValidRec r)
    (hcount : ∀ k : Span, (valsFor k rs).length < 2 ^ 32)
    (tbl : WMap) (hp : parseRs (encodeRecs rs) = some tbl)
    (k : Span) (w : Weather) (hw : lookupW tbl k = some w) :
    (∀ v ∈ valsFor k rs, w.min ≤ v ∧ v ≤ w.max) ∧
      w.min ∈ valsFor k rs ∧ w.max ∈ valsFor k rs ∧
      w.sum = (valsFor k rs).sum ∧ w.total = (valsFor k rs).length := by
  rw [parseRs_encodeRecs rs hv] at hp
  obtain rfl : refMap rs = tbl := Option.some.inj hp
  unfold refMap at hw
  rw [lookupW_foldl_obsPair, show lookupW ([] : WMap) k = none from rfl] at hw
  have hbnd := valsFor_bound k rs hv
  have hcnt := hcount k
  rcases hvals : valsFor k rs with _ | ⟨v, vs'⟩
  · rw [hvals] at hw
    exact absurd hw (by simp [aggVals])
  · rw [hvals] at hw hbnd hcnt
    have hstep : aggVals none (v :: vs') = aggVals (some (initW v)) vs' := rfl
    rw [hstep, aggVals_some_spec vs' (initW v) (by norm_num [initW])
      (by show -(2 ^ 63) ≤ (initW v).sum; exact (i64wrap_range v).1)
      (by show (initW v).sum < 2 ^ 63; exact (i64wrap_range v).2)] at hw
    obtain rfl := (Option.some.inj hw).symm
    have hsum_range := sum_bound (v :: vs') hbnd
    have hlen : (v :: vs').length = vs'.length + 1 := by simp
    dsimp only [initW]
    refine ⟨?_, ?_, ?_, ?_, ?_⟩
    · intro x hx
      rcases List.mem_cons.mp hx with rfl | hx
      · exact ⟨foldl_min_le_init vs' x, foldl_max_ge_init vs' x⟩
      · exact ⟨foldl_min_le_mem vs' v x hx, foldl_max_ge_mem vs' v x hx⟩
    · rcases foldl_min_mem vs' v with h | h
      · rw [h]; simp
      · simp [h]
    · rcases foldl_max_mem vs' v with h | h
      · rw [h]; simp
      · simp [h]
    · show i64wrap ((initW v).sum + vs'.sum) = (v :: vs').sum
      dsimp only [initW]
      rw [i64wrap_add_left]
      rw [show (v :: vs').sum = v + vs'.sum by simp]
      apply i64wrap_id
      · simp only [List.sum_cons] at hsum_range
        simp only [hlen] at hcnt
        have := hsum_range.1
        simp only [List.length_cons] at this
        push_cast at this ⊢
        omega
      · simp only [List.sum_cons, List.length_cons] at hsum_range
        simp only [hlen] at hcnt
        have := hsum_range.2
        push_cast at this ⊢
        omega
    · show ((initW v).total + vs'.length) % 2 ^ 32 = (v :: vs').length
      dsimp only [initW]
      simp only [List.length_cons] at hcnt ⊢
      omega

/-- Witness for C4 on a concrete two-record input. -/
theorem c4_table_invariants_witness :
    (∀ v ∈ valsFor [97] [(([97], strBytes "1.0") : Span × Span), ([97], strBytes "3.0")],
        (10 : Int) ≤ v ∧ v ≤ (30 : Int)) ∧
      (10 : Int) ∈ valsFor [97] [(([97], strBytes "1.0") : Span × Span), ([97], strBytes "3.0")] ∧
      (30 : Int) ∈ valsFor [97] [(([97], strBytes "1.0") : Span × Span), ([97], strBytes "3.0")] ∧
      (40 : Int) =
        (valsFor [97] [(([97], strBytes "1.0") : Span × Span), ([97], strBytes "3.0")]).sum ∧
      (2 : Nat) =
        (valsFor [97] [(([97], strBytes "1.0") : Span × Span), ([97], strBytes "3.0")]).length :=
  c4_table_invariants [(([97], strBytes "1.0") : Span × Span), ([97], strBytes "3.0")]
    (by decide)
    (fun k => by
      have h1 : (valsFor k
          [(([97], strBytes "1.0") : Span × Span), ([97], strBytes "3.0")]).length ≤ 2 := by
        unfold valsFor
        rw [List.length_map]
        exact le_trans (List.length_filter_le _ _) (by simp)
      omega)
    [([97], ⟨2, 10, 30, 40⟩)] (by decide) [97] ⟨2, 10, 30, 40⟩ (by decide)

/-- One wrapped-counter step for the counterexample record. -/
theorem obsPair_rep : ∀ (n c : Nat), c < 2 ^ 32 →
    List.foldl obsPair [([97], (⟨c, 0, 0, 0⟩ : Weather))]
        (List.replicate n (([97], strBytes "0.0") : Span × Span)) =
      [([97], (⟨(c + n) % 2 ^ 32, 0, 0, 0⟩ : Weather))] := by
  intro n
  induction n with
  | zero =>
    intro c hc
    simp only [List.replicate, List.foldl_nil]
    have he : (c + 0) % 2 ^ 32 = c := by omega
    rw [he]
  | succ n ih =>
    intro c hc
    rw [List.replicate_succ, List.foldl_cons]
    have hv : parse_temp (strBytes "0.0") = 0 := by decide
    have hi : i64wrap 0 = 0 := by decide
    have hstep : obsPair [([97], (⟨c, 0, 0, 0⟩ : Weather))]
        (([97], strBytes "0.0") : Span × Span) =
        [([97], (⟨(c + 1) % 2 ^ 32, 0, 0, 0⟩ : Weather))] := by
      unfold obsPair
      dsimp only
      rw [hv]
      simp [observe, updW, u32wrap, hi]
    rw [hstep, ih ((c + 1) % 2 ^ 32) (by omega)]
    have he : ((c + 1) % 2 ^ 32 + n) % 2 ^ 32 = (c + (n + 1)) % 2 ^ 32 := by omega
    rw [he]

/-- C4 counterexample: a well-formed input with `2^32` observations of one
station makes the `u32` observation counter wrap to `0`, so `total` does
not equal the number of observations. -/
theorem c4_total_wraps_counterexample :
    parseRs (encodeRecs (List.replicate (2 ^ 32) (([97], strBytes "0.0") : Span × Span))) =
      some [([97], ⟨0, 0, 0, 0⟩)] ∧
    (List.replicate (2 ^ 32) (([97], strBytes "0.0") : Span × Span)).length = 2 ^ 32 ∧
    (0 : Nat) ≠ 2 ^ 32 := by
  refine ⟨?_, List.length_replicate _ _, by norm_num⟩
  rw [parseRs_encodeRecs _ (fun r hr => by rw [List.eq_of_mem_replicate hr]; decide)]
  unfold refMap
  rw [show (2 : Nat) ^ 32 = (2 ^ 32 - 1) + 1 by norm_num, List.replicate_succ, List.foldl_cons]
  have h0 : obsPair [] (([97], strBytes "0.0") : Span × Span) =
      [([97], (⟨1, 0, 0, 0⟩ : Weather))] := by decide
  rw [h0, obsPair_rep (2 ^ 32 - 1) 1 (by norm_num)]
  have he : (1 + (2 ^ 32 - 1)) % 2 ^ 32 = 0 := by norm_num
  rw [he]

/-! ## Merging per-partition tables refines the sequential pass -/

theorem foldl_mergeO_shift (xs : List (Option Weather)) : ∀ a,
    xs.foldl mergeO a = mergeO a (xs.foldl mergeO none) := by
  induction xs with
  | nil => intro a; rcases a <;> rfl
  | cons x xs ih =>
    intro a
    rw [List.foldl_cons, List.foldl_cons, ih (mergeO a x), ih (mergeO none x),
      show mergeO none x = x from rfl, mergeO_assoc]

theorem lookupW_foldl_mergeTables (ts : List WMap) : ∀ (a : WMap) (k : Span),
    (∀ t ∈ ts, (t.map Prod.fst).Nodup) →
    lookupW (ts.foldl mergeTables a) k =
      (ts.map (fun t => lookupW t k)).foldl mergeO (lookupW a k) := by
  induction ts with
  | nil => intro a k _; rfl
  | cons t ts ih =>
    intro a k h
    rw [List.foldl_cons, List.map_cons, List.foldl_cons,
      ih (mergeTables a t) k (fun x hx => h x (by simp [hx])),
      lookupW_mergeTables t a (h t (by simp)) k]

theorem valsFor_append (k : Span) (l1 l2 : List (Span × Span)) :
    valsFor k (l1 ++ l2) = valsFor k l1 ++ valsFor k l2 := by
  unfold valsFor
  rw [List.filter_append, List.map_append]

theorem lookupW_refMap (rs : List (Span × Span)) (k : Span) :
    lookupW (refMap rs) k = aggVals none (valsFor k rs) := by
  unfold refMap
  rw [lookupW_foldl_obsPair]
  rfl

theorem aggVals_flatten (k : Span) (recss : List (List (Span × Span))) :
    aggVals none (valsFor k recss.flatten) =
      (recss.map (fun rs => aggVals none (valsFor k rs))).foldl mergeO none := by
  induction recss with
  | nil => rfl
  | cons rs rest ih =>
    rw [List.flatten_cons, valsFor_append, aggVals_append, aggVals_mergeO, ih,
      List.map_cons, List.foldl_cons,
      show mergeO none (aggVals none (valsFor k rs)) = aggVals none (valsFor k rs) from rfl]
    rw [← foldl_mergeO_shift]

/-- C3: the combine rule is associative and commutative, and for every
well-formed input split into record-aligned partitions, parsing each
partition and folding the tables with the `get_map_rayon` merge yields,
for every station, exactly the statistics of one sequential `parse` pass
over the whole buffer -- independent of partition count, merge order, and
grouping (by the associativity and commutativity conjuncts). -/
theorem c3_split_merge_refinement :
    (∀ a b c : Weather, combineW (combineW a b) c = combineW a (combineW b c)) ∧
    (∀ a b : Weather, combineW a b = combineW b a) ∧
    ∀ (recss : List (List (Span × Span))), (∀ rs ∈ recss, ∀ r ∈ rs, ValidRec r) →
      ∀ (tables : List WMap),
        recss.map (fun rs => parseMain (encodeRecs rs)) = tables.map some →
        ∀ (whole : WMap), parseMain (encodeRecs recss.flatten) = some whole →
        ∀ k : Span, lookupW (tables.foldl mergeTables []) k = lookupW whole k := by
  refine ⟨combineW_assoc, combineW_comm, ?_⟩
  intro recss hv tables htab whole hw k
  have h1 : recss.map (fun rs => parseMain (encodeRecs rs)) =
      (recss.map refMap).map some := by
    rw [List.map_map]
    apply List.map_congr_left
    intro rs hrs
    exact parseMain_encodeRecs rs (hv rs hrs)
  rw [h1] at htab
  obtain rfl : tables = recss.map refMap :=
    ((List.map_injective_iff.mpr (Option.some_injective _)) htab).symm
  have hflat : ∀ r ∈ recss.flatten, ValidRec r := by
    intro r hr
    obtain ⟨rs, hrs, hrin⟩ := List.mem_flatten.mp hr
    exact hv rs hrs r hrin
  rw [parseMain_encodeRecs recss.flatten hflat] at hw
  obtain rfl : refMap recss.flatten = whole := Option.some.inj hw
  rw [lookupW_foldl_mergeTables (recss.map refMap) [] k
    (by intro t ht; obtain ⟨rs, _, rfl⟩ := List.mem_map.mp ht; exact refMap_keys_nodup rs)]
  rw [lookupW_refMap recss.flatten k, aggVals_flatten, List.map_map,
    show lookupW ([] : WMap) k = none from rfl]
  congr 1
  apply List.map_congr_left
  intro rs _
  show lookupW (refMap rs) k = aggVals none (valsFor k rs)
  exact lookupW_refMap rs k

/-- Witness for C3: two record-aligned partitions of a three-record input. -/
theorem c3_split_merge_refinement_witness :
    lookupW ([[(([65] : Span), (⟨1, 10, 10, 10⟩ : Weather))],
        [(([66] : Span), (⟨1, 20, 20, 20⟩ : Weather)),
          (([65] : Span), (⟨1, 35, 35, 35⟩ : Weather))]].foldl mergeTables []) [65] =
      lookupW [(([65] : Span), (⟨2, 10, 35, 45⟩ : Weather)),
        (([66] : Span), (⟨1, 20, 20, 20⟩ : Weather))] [65] :=
  c3_split_merge_refinement.2.2
    [[([65], strBytes "1.0")], [([66], strBytes "2.0"), ([65], strBytes "3.5")]]
    (by decide)
    [[(([65] : Span), (⟨1, 10, 10, 10⟩ : Weather))],
      [(([66] : Span), (⟨1, 20, 20, 20⟩ : Weather)),
        (([65] : Span), (⟨1, 35, 35, 35⟩ : Weather))]]
    (by decide)
    [(([65] : Span), (⟨2, 10, 35, 45⟩ : Weather)),
      (([66] : Span), (⟨1, 20, 20, 20⟩ : Weather))]
    (by decide) [65]

/-! ## Partitioner correctness -/

theorem findLastNl_none_iff (l : List Nat) :
    findLastNl l = none ↔ ∀ b ∈ l, b ≠ 10 := by
  induction l with
  | nil => simp [findLastNl]
  | cons b rest ih =>
    constructor
    · intro h x hx
      unfold findLastNl at h
      rcases hr : findLastNl rest with _ | i
      · rw [hr] at h
        simp only at h
        rcases List.mem_cons.mp hx with rfl | hx
        · intro hb
          subst hb
          simp at h
        · exact (ih.mp hr) x hx
      · rw [hr] at h
        simp at h
    · intro h
      unfold findLastNl
      rw [ih.mpr (fun x hx => h x (by simp [hx]))]
      simp [h b (by simp)]

theorem findLastNl_some (l : List Nat) : ∀ (i : Nat), findLastNl l = some i →
    i < l.length ∧ l.getD i 0 = 10 := by
  induction l with
  | nil => intro i h; simp [findLastNl] at h
  | cons b rest ih =>
    intro i h
    unfold findLastNl at h
    rcases hr : findLastNl rest with _ | j
    · rw [hr] at h
      by_cases hb : b = 10
      · subst hb
        simp at h
        subst h
        simp
      · simp [hb] at h
    · rw [hr] at h
      simp only [Option.some.injEq] at h
      subst h
      obtain ⟨hj1, hj2⟩ := ih j hr
      constructor
      · simp; omega
      · simpa using hj2

theorem subSpan_length (data : List Nat) (a b : Nat) :
    (subSpan data a b).length = min (b - a) (data.length - a) := by
  unfold subSpan
  simp

theorem subSpan_getD (data : List Nat) (a b j : Nat)
    (h : j < (subSpan data a b).length) :
    (subSpan data a b).getD j 0 = data.getD (a + j) 0 := by
  rw [subSpan_length] at h
  have hj1 : j < b - a := lt_of_lt_of_le h (min_le_left _ _)
  have hj2 : a + j < data.length := by
    have := lt_of_lt_of_le h (min_le_right _ _)
    omega
  unfold subSpan
  have hlen : j < (List.take (b - a) (List.drop a data)).length := by
    simp
    omega
  rw [List.getD_eq_getElem _ _ hlen, List.getElem_take, List.getElem_drop,
    List.getD_eq_getElem _ _ hj2]

theorem snapGo_spec (bytes : List Nat) (bs : Nat) : ∀ (is : List Nat) (start : Nat)
    (ends : List Nat), snapGo bytes bs is start = some ends →
    List.Chain' (· < ·) (start :: ends) ∧
    (∀ e ∈ ends, 0 < e ∧ bytes.getD (e - 1) 0 = 10 ∧ ∃ i ∈ is, e ≤ (i + 1) * bs) ∧
    ends.length = is.length := by
  intro is
  induction is with
  | nil =>
    intro start ends h
    simp only [snapGo, Option.some.injEq] at h
    subst h
    exact ⟨by simp, by simp, rfl⟩
  | cons i is ih =>
    intro start ends h
    unfold snapGo at h
    dsimp only at h
    rcases hf : findLastNl (subSpan bytes start ((i + 1) * bs)) with _ | idx
    · rw [hf] at h
      simp at h
    · rw [hf] at h
      dsimp only at h
      rcases hsnap : snapGo bytes bs is (start + idx + 1) with _ | rest
    

      · rw [hsnap] at h
        exact Option.noConfusion h
      · rw [hsnap] at h
        simp only [Option.map_some', Option.some.injEq] at h
        subst h
        obtain ⟨hidx_lt, hidx_nl⟩ := findLastNl_some _ idx hf
        have hspan := subSpan_getD bytes start ((i + 1) * bs) idx hidx_lt
        rw [subSpan_length] at hidx_lt
        have hidx1 : idx < (i + 1) * bs - start := lt_of_lt_of_le hidx_lt (min_le_left _ _)
        obtain ⟨hch, hprop, hlen⟩ := ih (start + idx + 1) rest hsnap
        refine ⟨List.chain'_cons.mpr ⟨by omega, hch⟩, ?_, by simp [hlen]⟩
        intro x hx
        rcases List.mem_cons.mp hx with rfl | hx
        · refine ⟨by omega, ?_, ⟨i, by simp, by omega⟩⟩
          rw [show start + idx + 1 - 1 = start + idx by omega, ← hspan]
          exact hidx_nl
        · obtain ⟨h1, h2, i', hi', h3⟩ := hprop x hx
          exact ⟨h1, h2, i', by simp [hi'], h3⟩

theorem zip_consec (y : Nat) : ∀ (xs : List Nat) (x : Nat),
    (xs.zip (x :: xs)).map (fun p => (p.2, p.1)) ++ [((x :: xs).getLast (by simp), y)] =
      (x :: xs).zip (xs ++ [y]) := by
  intro xs
  induction xs with
  | nil => intro x; simp
  | cons a xs ih =>
    intro x
    show ((a, x) :: (xs.zip (a :: xs))).map (fun p => (p.2, p.1)) ++ _ =
      (x, a) :: ((a :: xs).zip (xs ++ [y]))
    rw [List.map_cons, List.cons_append]
    have hlast : (x :: a :: xs).getLast (by simp) = (a :: xs).getLast (by simp) :=
      List.getLast_cons (by simp)
    rw [hlast]
    exact congrArg (List.cons (a, x).swap) (ih a)

theorem chain'_zip_consec (y : Nat) : ∀ (xs : List Nat) (x : Nat),
    List.Chain' (fun p q : Nat × Nat => p.2 = q.1) ((x :: xs).zip (xs ++ [y])) := by
  intro xs
  induction xs with
  | nil => intro x; simp
  | cons a xs ih =>
    intro x
    rw [List.cons_append, List.zip_cons_cons]
    cases xs with
    | nil => simp
    | cons b xs' =>
      rw [List.cons_append, List.zip_cons_cons]
      refine List.chain'_cons.mpr ⟨rfl, ?_⟩
      have h := ih a
      rw [List.cons_append, List.zip_cons_cons] at h
      exact h

theorem le_zip_consec (y : Nat) : ∀ (xs : List Nat) (x : Nat),
    List.Chain' (· ≤ ·) (x :: (xs ++ [y])) →
    ∀ p ∈ (x :: xs).zip (xs ++ [y]), p.1 ≤ p.2 := by
  intro xs
  induction xs with
  | nil =>
    intro x hch p hp
    simp only [List.nil_append, List.zip_cons_cons, List.zip_nil_left,
      List.mem_singleton] at hp
    subst hp
    simpa using hch
  | cons a xs ih =>
    intro x hch p hp
    rw [List.cons_append, List.zip_cons_cons] at hp
    rcases List.mem_cons.mp hp with rfl | hp
    · exact (List.chain'_cons.mp (by simpa using hch)).1
    · exact ih a (List.chain'_cons.mp (by simpa using hch)).2 p hp

/-- C6 (amended): whenever the partitioner succeeds (every split-point
search window contains a newline to snap to), the `numThreads` ranges are
contiguous (each starts where the previous ended), start at offset 0,
end at the buffer length, are monotone, and every range except the last
ends one past a newline byte.  (Success is not guaranteed: see the
counterexample, where a well-formed buffer with at least `numThreads`
records makes the partitioner panic.) -/
theorem c6_partition_properties (bytes : List Nat) (n : Nat) (hn : 1 ≤ n)
    (rgs : List (Nat × Nat)) (h : partitionRanges bytes n = some rgs) :
    rgs.length = n ∧
    rgs.head?.map Prod.fst = some 0 ∧
    rgs.getLast?.map Prod.snd = some bytes.length ∧
    List.Chain' (fun p q => p.2 = q.1) rgs ∧
    (∀ p ∈ rgs, p.1 ≤ p.2) ∧
    (∀ p ∈ rgs.dropLast, 0 < p.2 ∧ bytes.getD (p.2 - 1) 0 = 10) := by
  unfold partitionRanges at h
  rcases hsnap : snapGo bytes (bytes.length / n) (List.range (n - 1)) 0 with _ | ends
  · rw [hsnap] at h
    exact Option.noConfusion h
  · rw [hsnap, Option.map_some'] at h
    have hrgs := (Option.some.inj h).symm
    obtain ⟨hch, hprop, hlen⟩ := snapGo_spec bytes _ _ 0 ends hsnap
    rw [List.length_range] at hlen
    have hle_len : ∀ e ∈ ends, e ≤ bytes.length := by
      intro e he
      obtain ⟨_, _, i, hi, hbnd⟩ := hprop e he
      have hi' : i < n - 1 := List.mem_range.mp hi
      calc e ≤ (i + 1) * (bytes.length / n) := hbnd
        _ ≤ n * (bytes.length / n) := Nat.mul_le_mul_right _ (by omega)
        _ ≤ bytes.length := by
            rw [Nat.mul_comm]
            exact Nat.div_mul_le_self _ _
    have hzip := zip_consec bytes.length ends 0
    refine ⟨?_, ?_, ?_, ?_, ?_, ?_⟩
    · rw [hrgs, hzip, List.length_zip]
      simp
      omega
    · rw [hrgs, hzip]
      cases ends with
      | nil => rfl
      | cons e es => rfl
    · rw [hrgs, List.getLast?_concat]
      rfl
    · rw [hrgs, hzip]
      exact chain'_zip_consec bytes.length ends 0
    · rw [hrgs, hzip]
      apply le_zip_consec
      have hc1 : List.Chain' (· ≤ ·) (0 :: ends) := hch.imp (fun _ _ h => le_of_lt h)
      have hc2 : List.Chain' (· ≤ ·) ((0 :: ends) ++ [bytes.length]) := by
        rw [List.chain'_append]
        refine ⟨hc1, by simp, ?_⟩
        intro x hx y hy
        simp only [List.head?_cons, Option.mem_def, Option.some.injEq] at hy
        subst hy
        have hxl : (0 :: ends).getLast? = some ((0 :: ends).getLast (by simp)) :=
          List.getLast?_eq_getLast _ (by simp)
        rw [hxl] at hx
        simp only [Option.mem_def, Option.some.injEq] at hx
        subst hx
        have hmem := List.getLast_mem (l := 0 :: ends) (by simp)
        rcases List.mem_cons.mp hmem with heq | hmem'
        · rw [heq]
          exact Nat.zero_le _
        · exact hle_len _ hmem'
      simpa using hc2
    · rw [hrgs, List.dropLast_concat]
      intro p hp
      obtain ⟨q, hq, rfl⟩ := List.mem_map.mp hp
      have hq1 : q.1 ∈ ends := (List.of_mem_zip hq).1
      obtain ⟨h1, h2, _⟩ := hprop q.1 hq1
      exact ⟨h1, h2⟩

/-- C6 counterexample: a well-formed two-record buffer whose first
split-point window contains no newline makes the partitioner panic
instead of producing the two ranges. -/
theorem c6_partitioner_counterexample :
    (∀ r ∈ [((List.replicate 10 65 : Span), strBytes "1.0"),
        (([66] : Span), strBytes "2.0")], ValidRec r) ∧
    (2 : Nat) ≤ ([((List.replicate 10 65 : Span), strBytes "1.0"),
        (([66] : Span), strBytes "2.0")] : List (Span × Span)).length ∧
    partitionRanges
      (encodeRecs [((List.replicate 10 65 : Span), strBytes "1.0"),
        (([66] : Span), strBytes "2.0")]) 2 = none := by
  refine ⟨by decide, by decide, by decide⟩

/-- Witness for C6 on a buffer the partitioner does split successfully. -/
theorem c6_partition_properties_witness :
    partitionRanges (strBytes "a;1.0\nb;2.0\n") 2 = some [(0, 6), (6, 12)] ∧
      ([(0, 6), (6, 12)] : List (Nat × Nat)).length = 2 ∧
      (∀ p ∈ ([(0, 6), (6, 12)] : List (Nat × Nat)).dropLast,
        0 < p.2 ∧ (strBytes "a;1.0\nb;2.0\n").getD (p.2 - 1) 0 = 10) :=
  ⟨by decide,
    (c6_partition_properties (strBytes "a;1.0\nb;2.0\n") 2 (by decide)
      [(0, 6), (6, 12)] (by decide)).1,
    (c6_partition_properties (strBytes "a;1.0\nb;2.0\n") 2 (by decide)
      [(0, 6), (6, 12)] (by decide)).2.2.2.2.2⟩

/-- C8: if any split-point search window lacks a newline the partitioner
panics and the whole run aborts with no partial result: whenever the
partitioner fails, `get_map_rayon` yields nothing at all; in particular
with at least two workers and no newline in the first search window the
run produces no output. -/
theorem c8_partition_failure_aborts :
    (∀ (bytes : List Nat) (n : Nat), partitionRanges bytes n = none →
      getMapRayon bytes n = none) ∧
    (∀ (bytes : List Nat) (n : Nat), 2 ≤ n →
      (∀ b ∈ subSpan bytes 0 (bytes.length / n), b ≠ 10) →
      getMapRayon bytes n = none) := by
  have h1 : ∀ (bytes : List Nat) (n : Nat), partitionRanges bytes n = none →
      getMapRayon bytes n = none := by
    intro bytes n h
    unfold getMapRayon
    rw [h]
    rfl
  refine ⟨h1, ?_⟩
  intro bytes n hn hwin
  apply h1
  unfold partitionRanges
  obtain ⟨m, hm⟩ : ∃ m, n - 1 = m + 1 := ⟨n - 2, by omega⟩
  rw [hm, List.range_succ_eq_map]
  have hsnap : snapGo bytes (bytes.length / n)
      (0 :: (List.range m).map Nat.succ) 0 = none := by
    unfold snapGo
    dsimp only
    simp only [Nat.zero_add, one_mul]
    rw [(findLastNl_none_iff _).mpr hwin]
  rw [hsnap]
  rfl

/-- Witness for C8: a four-byte buffer with no newline at all, split for
two workers, makes the whole run abort. -/
theorem c8_partition_failure_aborts_witness :
    getMapRayon (strBytes "AAAA") 2 = none :=
  c8_partition_failure_aborts.2 (strBytes "AAAA") 2 (by decide) (by decide)

/-! ## Emission-format lemmas (C7) -/

theorem lexLe_trans : ∀ a b c : Span, lexLe a b = true → lexLe b c = true →
    lexLe a c = true := by
  intro a
  induction a with
  | nil => intro b c _ _; rfl
  | cons x xs ih =>
    intro b c hab hbc
    cases b with
    | nil => exact absurd hab (by simp [lexLe])
    | cons y ys =>
      cases c with
      | nil => exact absurd hbc (by simp [lexLe])
      | cons z zs =>
        unfold lexLe at hab hbc ⊢
        rcases lt_trichotomy x y with hxy | hxy | hxy
        · rcases lt_trichotomy y z with hyz | hyz | hyz
          · simp [lt_trans hxy hyz]
          · subst hyz; simp [hxy]
          · rw [if_neg (by omega), if_neg (by omega)] at hbc
            exact absurd hbc (by simp)
        · subst hxy
          rw [if_neg (lt_irrefl x), if_pos rfl] at hab
          rcases lt_trichotomy x z with hxz | hxz | hxz
          · simp [hxz]
          · subst hxz
            rw [if_neg (lt_irrefl x), if_pos rfl] at hbc ⊢
            exact ih ys zs hab hbc
          · rw [if_neg (by omega), if_neg (by omega)] at hbc
            exact absurd hbc (by simp)
        · rw [if_neg (by omega), if_neg (by omega)] at hab
          exact absurd hab (by simp)

theorem lexLe_total : ∀ a b : Span, lexLe a b = true ∨ lexLe b a = true := by
  intro a
  induction a with
  | nil => intro b; left; rfl
  | cons x xs ih =>
    intro b
    cases b with
    | nil => right; rfl
    | cons y ys =>
      unfold lexLe
      rcases lt_trichotomy x y with h | h | h
      · left; simp [h]
      · subst h
        rcases ih ys with h2 | h2
        · left; simp [lt_irrefl, h2]
        · right; simp [lt_irrefl, h2]
      · right; simp [h]

theorem insortW_perm (kw : Span × Weather) :
    ∀ l : WMap, (insortW kw l).Perm (kw :: l) := by
  intro l
  induction l with
  | nil => exact List.Perm.refl _
  | cons x xs ih =>
    by_cases h : lexLe kw.1 x.1 = true
    · have he : insortW kw (x :: xs) = kw :: x :: xs := by
        simp only [insortW]; rw [if_pos h]
      rw [he]
    · have he : insortW kw (x :: xs) = x :: insortW kw xs := by
        simp only [insortW]; rw [if_neg h]
      rw [he]
      exact (ih.cons x).trans (List.Perm.swap kw x xs)

theorem insortW_pairwise (kw : Span × Weather) :
    ∀ l : WMap, List.Pairwise (fun p q => lexLe p.1 q.1 = true) l →
      List.Pairwise (fun p q => lexLe p.1 q.1 = true) (insortW kw l) := by
  intro l
  induction l with
  | nil =>
    intro _
    unfold insortW
    exact List.pairwise_singleton _ _
  | cons x xs ih =>
    intro hp
    rw [List.pairwise_cons] at hp
    obtain ⟨hx, hxs⟩ := hp
    by_cases h : lexLe kw.1 x.1 = true
    · have he : insortW kw (x :: xs) = kw :: x :: xs := by
        simp only [insortW]; rw [if_pos h]
      rw [he, List.pairwise_cons]
      refine ⟨?_, List.pairwise_cons.mpr ⟨hx, hxs⟩⟩
      intro q hq
      rcases List.mem_cons.mp hq with rfl | hq'
      · exact h
      · exact lexLe_trans _ _ _ h (hx q hq')
    · have he : insortW kw (x :: xs) = x :: insortW kw xs := by
        simp only [insortW]; rw [if_neg h]
      rw [he, List.pairwise_cons]
      refine ⟨?_, ih hxs⟩
      intro q hq
      rcases List.mem_cons.mp ((insortW_perm kw xs).mem_iff.mp hq) with rfl | hq'
      · rcases lexLe_total x.1 q.1 with h2 | h2
        · exact h2
        · exact absurd h2 h
      · exact hx q hq'

theorem sortTable_perm : ∀ m : WMap, (sortTable m).Perm m := by
  intro m
  induction m with
  | nil => exact List.Perm.refl _
  | cons x xs ih =>
    have he : sortTable (x :: xs) = insortW x (sortTable xs) := rfl
    rw [he]
    exact (insortW_perm x _).trans (ih.cons x)

theorem sortTable_pairwise : ∀ m : WMap,
    List.Pairwise (fun p q => lexLe p.1 q.1 = true) (sortTable m) := by
  intro m
  induction m with
  | nil => exact List.Pairwise.nil
  | cons x xs ih =>
    have he : sortTable (x :: xs) = insortW x (sortTable xs) := rfl
    rw [he]
    exact insortW_pairwise x _ ih

theorem decGo_digits : ∀ (f n b : Nat), b ∈ decGo f n → 48 ≤ b ∧ b < 58 := by
  intro f
  induction f with
  | zero => intro n b h; simp [decGo] at h
  | succ f ih =>
    intro n b h
    unfold decGo at h
    by_cases hn : n < 10
    · rw [if_pos hn] at h
      simp only [List.mem_singleton] at h
      subst h
      omega
    · rw [if_neg hn] at h
      rcases List.mem_append.mp h with h1 | h1
      · exact ih _ _ h1
      · simp only [List.mem_singleton] at h1
        subst h1
        have : n % 10 < 10 := Nat.mod_lt _ (by omega)
        omega

theorem fmt1_oneFrac (x : Dy) :
    ∃ pre d, fmt1 x = pre ++ [46, 48 + d] ∧ d < 10 ∧ ∀ c ∈ pre, c ≠ 46 := by
  refine ⟨(if x.1 < 0 then [45] else []) ++ decRender (tenths x / 10), tenths x % 10,
    ?_, Nat.mod_lt _ (by omega), ?_⟩
  · unfold fmt1
    dsimp only
    rw [List.append_assoc]
  · intro c hc
    rcases List.mem_append.mp hc with h1 | h1
    · by_cases hneg : x.1 < 0
      · rw [if_pos hneg] at h1
        simp only [List.mem_singleton] at h1
        omega
      · rw [if_neg hneg] at h1
        simp at h1
    · have := decGo_digits 30 _ _ h1
      omega

theorem fmt1_bytes (x : Dy) : ∀ b ∈ fmt1 x, b = 45 ∨ b = 46 ∨ (48 ≤ b ∧ b < 58) := by
  intro b hb
  unfold fmt1 at hb
  dsimp only at hb
  rcases List.mem_append.mp hb with h1 | h1
  · by_cases hneg : x.1 < 0
    · rw [if_pos hneg] at h1
      simp only [List.mem_singleton] at h1
      omega
    · rw [if_neg hneg] at h1
      simp at h1
  · rcases List.mem_append.mp h1 with h2 | h2
    · right; right; exact decGo_digits 30 _ _ h2
    · simp only [List.mem_cons, List.mem_singleton] at h2
      rcases h2 with rfl | h2
      · right; left; rfl
      · simp only [List.not_mem_nil, or_false] at h2
        subst h2
        have : tenths x % 10 < 10 := Nat.mod_lt _ (by omega)
        omega

theorem mem_flatten_intersperse (s : List Nat) :
    ∀ (L : List (List Nat)) (b : Nat), b ∈ (List.intersperse s L).flatten →
      b ∈ s ∨ ∃ l ∈ L, b ∈ l := by
  intro L
  induction L with
  | nil => intro b h; simp at h
  | cons x xs ih =>
    intro b h
    cases xs with
    | nil =>
      simp at h
      right
      exact ⟨x, by simp, h⟩
    | cons y ys =>
      rw [List.intersperse_cons_cons] at h
      simp only [List.flatten_cons] at h
      rcases List.mem_append.mp h with h1 | h1
      · right; exact ⟨x, by simp, h1⟩
      · rcases List.mem_append.mp h1 with h2 | h2
        · left; exact h2
        · rcases ih b h2 with h3 | ⟨l, hl, hbl⟩
          · left; exact h3
          · right; exact ⟨l, List.mem_cons_of_mem x hl, hbl⟩

theorem entryBytes_mem (kw : Span × Weather) (b : Nat) (hb : b ∈ entryBytes kw) :
    b ∈ kw.1 ∨ b = 61 ∨ b = 47 ∨ b = 45 ∨ b = 46 ∨ (48 ≤ b ∧ b < 58) := by
  unfold entryBytes at hb
  simp only [List.append_assoc, List.mem_append, List.mem_cons,
    List.mem_singleton, List.not_mem_nil, or_false] at hb
  rcases hb with h | h | h | h | h | h | h
  · exact Or.inl h
  · subst h; tauto
  · rcases fmt1_bytes _ b h with h2 | h2 | h2 <;> tauto
  · subst h; tauto
  · rcases fmt1_bytes _ b h with h2 | h2 | h2 <;> tauto
  · subst h; tauto
  · rcases fmt1_bytes _ b h with h2 | h2 | h2 <;> tauto

theorem emit_head_no_newline (sorted : WMap)
    (hnl : ∀ kw ∈ sorted, (10 : Nat) ∉ kw.1) :
    ∀ b ∈ 123 :: (List.intersperse [44, 32] (sorted.map entryBytes)).flatten ++
      [125], b ≠ 10 := by
  intro b hb
  rcases List.mem_cons.mp hb with rfl | hb
  · decide
  · rcases List.mem_append.mp hb with h1 | h1
    · rcases mem_flatten_intersperse _ _ _ h1 with h2 | ⟨l, hl, hbl⟩
      · simp only [List.mem_cons, List.mem_singleton, List.not_mem_nil, or_false] at h2
        omega
      · obtain ⟨kw, hkw, rfl⟩ := List.mem_map.mp hl
        intro hb10
        subst hb10
        rcases entryBytes_mem kw 10 hbl with h3 | h3 | h3 | h3 | h3 | h3
        · exact hnl kw hkw h3
        all_goals omega
    · simp only [List.mem_singleton] at h1
      omega

/-- C7: for every non-empty table whose station names contain no newline
byte and whose counts are nonzero, the emission step writes a single line:
the table reordered into ascending lexicographic station order (one entry
per station), rendered as `\x7b` then `STATION=MIN/MEAN/MAX` entries
separated by `", "` (no trailing separator), closed by `\x7d` and exactly
one newline, which is the last byte; each of MIN, MEAN, MAX carries
exactly one fractional decimal digit, and MEAN is the float quotient
`sum / total` (times `0.1`), computed only at emission time. -/
theorem c7_output_format (m : WMap) (hm : m ≠ [])
    (hnl : ∀ kw ∈ m, (10 : Nat) ∉ kw.1)
    (htot : ∀ kw ∈ m, kw.2.total ≠ 0) :
    (sortTable m).Perm m ∧
    List.Pairwise (fun p q : Span × Weather => lexLe p.1 q.1 = true) (sortTable m) ∧
    (sortTable m).map entryBytes ≠ [] ∧
    emitBytes (sortTable m) =
      (123 :: (List.intersperse [44, 32] ((sortTable m).map entryBytes)).flatten ++
        [125]) ++ [10] ∧
    (∀ b ∈ 123 :: (List.intersperse [44, 32] ((sortTable m).map entryBytes)).flatten ++
      [125], b ≠ 10) ∧
    (∀ kw ∈ sortTable m,
      entryBytes kw =
        kw.1 ++ [61] ++ fmt1 (f32TimesTenth kw.2.min) ++ [47] ++
          fmt1 (meanF64 kw.2.sum kw.2.total) ++ [47] ++
          fmt1 (f32TimesTenth kw.2.max) ∧
      ∀ x ∈ [f32TimesTenth kw.2.min, meanF64 kw.2.sum kw.2.total,
          f32TimesTenth kw.2.max],
        ∃ pre d, fmt1 x = pre ++ [46, 48 + d] ∧ d < 10 ∧ ∀ c ∈ pre, c ≠ 46) := by
  have hperm := sortTable_perm m
  refine ⟨hperm, sortTable_pairwise m, ?_, ?_, ?_, ?_⟩
  · intro h
    rw [List.map_eq_nil_iff] at h
    have hl := hperm.length_eq
    rw [h] at hl
    cases m with
    | nil => exact hm rfl
    | cons a as => simp at hl
  · unfold emitBytes
    simp [List.append_assoc]
  · exact emit_head_no_newline (sortTable m)
      (fun kw hkw => hnl kw (hperm.mem_iff.mp hkw))
  · intro kw _
    refine ⟨rfl, ?_⟩
    intro x _
    exact fmt1_oneFrac x

/-- Witness for C7 at a singleton table. -/
theorem c7_output_format_witness :
    ([((strBytes "a"), Weather.mk 1 5 5 5)] : WMap) ≠ [] ∧
    List.Pairwise (fun p q : Span × Weather => lexLe p.1 q.1 = true)
      (sortTable [((strBytes "a"), Weather.mk 1 5 5 5)]) :=
  ⟨by decide,
    (c7_output_format [((strBytes "a"), Weather.mk 1 5 5 5)] (by decide)
      (by decide) (by decide)).2.1⟩

/-! ## Capacity-faithful parse loop (C9)

`buf` is a fixed array (`[&[u8]; 64]` in `main.rs`, 128 in `parse.rs`):
`extract_fields` writes through `get_unchecked_mut`, so a field count
past the capacity is undefined behaviour; the drain calls `parse_temp`,
whose `assert_unchecked(t_len >= 3)` makes spans shorter than 3 bytes
undefined behaviour; and the carry `buf[0] = buf[count - is_odd]` is a
bounds-checked read that fails at `count = capacity`.  Each abnormal
outcome is modelled as `none`. -/

/-- One drain: `none` if a drained measurement span is shorter than 3
bytes or the carry read `buf[count - is_odd]` is out of bounds;
otherwise the updated table and the carried leftover. -/
def drainStep (cap : Nat) (m : WMap) (buf : List Span) : Option (WMap × List Span) :=
  if (∀ p ∈ pairUp buf, 3 ≤ p.2.length) ∧ buf.length - buf.length % 2 < cap then
    some (drainMap m buf, oddTail buf)
  else none

/-- The fill/drain loop over the window masks with the source's
fixed-capacity field buffer: `none` on an out-of-bounds field write, on
a `parse_temp` span shorter than 3 bytes, on an out-of-bounds carry
read, and on the odd-leftover spin at iterator exhaustion. -/
def parseChunksCap (cap T : Nat) (data : List Nat) :
    List Nat → Nat → Nat → List Span → WMap → Option WMap
  | [], _, _, buf, m =>
    if buf.length = 0 then some m
    else
      match drainStep cap m buf with
      | none => none
      | some p => if p.2.length = 0 then some p.1 else none
  | mask :: ms, prev, pos, buf, m =>
    let e := extract_fields data prev pos mask
    let buf' := buf ++ e.1
    if cap < buf'.length then none
    else if T ≤ buf'.length then
      match drainStep cap m buf' with
      | none => none
      | some p => parseChunksCap cap T data ms e.2 (pos + 64) p.2 p.1
    else parseChunksCap cap T data ms e.2 (pos + 64) buf' m

/-- `parse` of `src/parse.rs` with its 128-slot buffer, threshold 96. -/
def parseRsExact (data : List Nat) : Option WMap :=
  parseChunksCap 128 96 data (masksOf data) 0 0 [] []

/-- `parse` of `src/main.rs` with its 64-slot buffer, threshold 32. -/
def parseMainExact (data : List Nat) : Option WMap :=
  parseChunksCap 64 32 data (masksOf data) 0 0 [] []

theorem maskIdx_length : ∀ (f n : Nat), (maskIdx f n).length = f := by
  intro f
  induction f with
  | zero => intro n; rfl
  | succ f ih => intro n; simp [maskIdx, ih]

theorem extract_fields_length (data : List Nat) (prev pos mask : Nat) :
    (extract_fields data prev pos mask).1.length = pc mask := by
  unfold extract_fields
  rw [extractGo_spec]
  dsimp only
  rw [spansGo_length, List.length_map, maskIdx_length]

/-- On a run in which every window holds at most 32 delimiters and every
drained measurement span has at least 3 bytes, the fixed-capacity loop
never faults and agrees with the unbounded model. -/
theorem parseChunksCap_eq (cap T : Nat) (data : List Nat) (hT : 2 ≤ T)
    (hTcap : T + 32 ≤ cap) :
    ∀ (ms : List Nat) (prev pos : Nat) (buf : List Span) (m : WMap),
      buf.length < T →
      (∀ mask ∈ ms, pc mask ≤ 32) →
      (∀ p ∈ pairUp (buf ++ extractAllGo data ms prev pos), 3 ≤ p.2.length) →
      parseChunksCap cap T data ms prev pos buf m =
        parseChunks T data ms prev pos buf m := by
  intro ms
  induction ms with
  | nil =>
    intro prev pos buf m hbuf _ hp3
    simp only [extractAllGo, List.append_nil] at hp3
    simp only [parseChunksCap, parseChunks]
    by_cases hb0 : buf.length = 0
    · rw [if_pos hb0]
      have hbe : buf = [] := List.length_eq_zero.mp hb0
      subst hbe
      simp [drainMap, pairUp]
    · rw [if_neg hb0]
      have hds : drainStep cap m buf = some (drainMap m buf, oddTail buf) := by
        unfold drainStep
        rw [if_pos ⟨hp3, by omega⟩]
      rw [hds]
      dsimp only
      rw [oddTail_length]
  | cons mask ms ih =>
    intro prev pos buf m hbuf hpc hp3
    have hmask : pc mask ≤ 32 := hpc mask (by simp)
    have hpc' : ∀ mk ∈ ms, pc mk ≤ 32 := fun mk hmk => hpc mk (by simp [hmk])
    have hel : (extract_fields data prev pos mask).1.length = pc mask :=
      extract_fields_length data prev pos mask
    simp only [extractAllGo] at hp3
    rw [← List.append_assoc] at hp3
    simp only [parseChunksCap, parseChunks]
    have hcap : ¬ cap < (buf ++ (extract_fields data prev pos mask).1).length := by
      rw [List.length_append, hel]
      omega
    rw [if_neg hcap]
    by_cases hth : T ≤ (buf ++ (extract_fields data prev pos mask).1).length
    · rw [if_pos hth, if_pos hth]
      have hds : drainStep cap m (buf ++ (extract_fields data prev pos mask).1) =
          some (drainMap m (buf ++ (extract_fields data prev pos mask).1),
            oddTail (buf ++ (extract_fields data prev pos mask).1)) := by
        unfold drainStep
        rw [if_pos]
        constructor
        · intro p hp
          apply hp3
          rw [pairUp_append]
          exact List.mem_append_left _ hp
        · rw [List.length_append, hel]
          omega
      rw [hds]
      dsimp only
      apply ih
      · rw [oddTail_length]
        omega
      · exact hpc'
      · intro p hp
        apply hp3
        rw [pairUp_append]
        exact List.mem_append_right _ hp
    · rw [if_neg hth, if_neg hth]
      apply ih
      · rw [List.length_append, hel] at hth ⊢
        omega
      · exact hpc'
      · exact hp3

/-! ## Well-formed buffers keep the field counts within capacity -/

/-- No two adjacent bytes are both delimiters: true of every well-formed
buffer, and exactly what caps a 64-byte window at 32 delimiters. -/
def NoAdjDelim (data : List Nat) : Prop :=
  List.Chain' (fun a b => isDelim a = false ∨ isDelim b = false) data

theorem chain'_take_rel {α : Type} (R : α → α → Prop) :
    ∀ (n : Nat) (l : List α), List.Chain' R l → List.Chain' R (l.take n)
  | 0, l, _ => by rw [List.take_zero]; exact List.chain'_nil
  | n + 1, [], _ => by rw [List.take_nil]; exact List.chain'_nil
  | n + 1, a :: t, h => by
    rw [List.take_succ_cons, List.chain'_cons']
    obtain ⟨h1, h2⟩ := List.chain'_cons'.mp h
    refine ⟨?_, chain'_take_rel R n t h2⟩
    intro b hb
    apply h1
    cases t with
    | nil => rw [List.take_nil] at hb; simp at hb
    | cons c t' =>
      cases n with
      | zero => rw [List.take_zero] at hb; simp at hb
      | succ k =>
        rw [List.take_succ_cons] at hb
        simpa using hb

theorem chain'_drop_rel {α : Type} (R : α → α → Prop) :
    ∀ (n : Nat) (l : List α), List.Chain' R l → List.Chain' R (l.drop n)
  | 0, _, h => h
  | n + 1, [], _ => by rw [List.drop_nil]; exact List.chain'_nil
  | n + 1, a :: t, h => by
    rw [List.drop_succ_cons]
    exact chain'_drop_rel R n t (List.chain'_cons'.mp h).2

theorem noAdjDelim_count : ∀ (l : List Nat), NoAdjDelim l →
    l.countP isDelim ≤ (l.length + 1) / 2
  | [], _ => by simp
  | [a], _ => by
    by_cases ha : isDelim a = true <;> simp [List.countP_cons, ha]
  | a :: b :: t, h => by
    have h1 := (List.chain'_cons.mp h).1
    have h3 : NoAdjDelim t := (List.chain'_cons'.mp (List.chain'_cons.mp h).2).2
    have ih := noAdjDelim_count t h3
    cases ha : isDelim a with
    | true =>
      cases hb : isDelim b with
      | true =>
        rw [ha, hb] at h1
        rcases h1 with h1 | h1 <;> exact absurd h1 (by simp)
      | false =>
        have hc : (a :: b :: t).countP isDelim = t.countP isDelim + 1 := by
          simp [List.countP_cons, ha, hb]
        rw [hc]
        simp only [List.length_cons]
        omega
    | false =>
      cases hb : isDelim b with
      | true =>
        have hc : (a :: b :: t).countP isDelim = t.countP isDelim + 1 := by
          simp [List.countP_cons, ha, hb]
        rw [hc]
        simp only [List.length_cons]
        omega
      | false =>
        have hc : (a :: b :: t).countP isDelim = t.countP isDelim := by
          simp [List.countP_cons, ha, hb]
        rw [hc]
        simp only [List.length_cons]
        omega

theorem count_true_map_isDelim : ∀ l : List Nat,
    (l.map isDelim).count true = l.countP isDelim := by
  intro l
  induction l with
  | nil => rfl
  | cons a t ih =>
    simp only [List.map_cons, List.count_cons, List.countP_cons, ih]
    cases ha : isDelim a <;> simp

/-- Every window mask of a buffer with no adjacent delimiters has
population count at most 32. -/
theorem masksOf_pc_le : ∀ (n : Nat) (data : List Nat), data.length ≤ n →
    NoAdjDelim data → ∀ mask ∈ masksOf data, pc mask ≤ 32 := by
  intro n
  induction n with
  | zero =>
    intro data hlen _ mask hmask
    have hd : data = [] := List.length_eq_zero.mp (by omega)
    subst hd
    have h1 : masksOf [] = [0] := by decide
    rw [h1] at hmask
    simp at hmask
    subst hmask
    decide
  | succ n ih =>
    intro data hlen hadj mask hmask
    by_cases h64 : data.length < 64
    · rw [masksOf_small data h64] at hmask
      simp at hmask
      subst hmask
      rw [pc_maskOf_eq_count _ (by unfold loadOrDefault; simp; omega),
        count_true_map_isDelim]
      unfold loadOrDefault
      rw [List.countP_append]
      have hpad : (List.replicate (64 - data.length) 0).countP isDelim = 0 := by
        rw [List.countP_eq_zero]
        intro b hb
        rw [List.eq_of_mem_replicate hb]
        decide
      have hcnt := noAdjDelim_count data hadj
      omega
    · rw [masksOf_big data (by omega)] at hmask
      rcases List.mem_cons.mp hmask with rfl | hmask'
      · rw [pc_maskOf_eq_count _ (by simp), count_true_map_isDelim]
        have hcnt := noAdjDelim_count (data.take 64) (chain'_take_rel _ 64 data hadj)
        have hlen64 : (data.take 64).length = 64 := by simp; omega
        omega
      · exact ih (data.drop 64) (by simp; omega)
          (chain'_drop_rel _ 64 data hadj) mask hmask'

theorem chain'_noDelim (l : List Nat) (h : ∀ b ∈ l, isDelim b = false) :
    List.Chain' (fun a b => isDelim a = false ∨ isDelim b = false) l := by
  induction l with
  | nil => exact List.chain'_nil
  | cons a t ih =>
    rw [List.chain'_cons']
    exact ⟨fun b _ => Or.inl (h a (by simp)), ih (fun b hb => h b (by simp [hb]))⟩

theorem mem_of_getLast? {α : Type} : ∀ (l : List α) (a : α), l.getLast? = some a → a ∈ l
  | [], _, h => by simp at h
  | [b], a, h => by
    simp only [List.getLast?_singleton, Option.some.injEq] at h
    simp [h]
  | b :: c :: t, a, h => by
    rw [List.getLast?_cons_cons] at h
    exact List.mem_cons_of_mem b (mem_of_getLast? (c :: t) a h)

theorem noAdjDelim_encodeRec (r : Span × Span) (hr : ValidRec r) :
    List.Chain' (fun a b => isDelim a = false ∨ isDelim b = false) (encodeRec r) := by
  obtain ⟨hne, hnd, hg⟩ := hr
  have htnd := tempGrammar_no_delim r.2 hg
  unfold encodeRec
  rw [List.chain'_append]
  refine ⟨chain'_noDelim _ hnd, ?_, ?_⟩
  · rw [List.chain'_cons']
    constructor
    · intro y hy
      right
      apply htnd
      obtain ⟨d1, _, d2, _, d3, _, hsh⟩ := hg
      rcases hsh with hsh | hsh | hsh | hsh <;> rw [hsh] at hy ⊢ <;>
        simp only [List.cons_append, List.head?_cons, Option.mem_def,
          Option.some.injEq] at hy <;> subst hy <;> simp
    · rw [List.chain'_append]
      refine ⟨chain'_noDelim _ htnd, ?_, ?_⟩
      · simp
      · intro x hx y hy
        left
        apply htnd
        exact mem_of_getLast? r.2 x (Option.mem_def.mp hx)
  · intro x hx y hy
    left
    apply hnd
    exact mem_of_getLast? r.1 x (Option.mem_def.mp hx)

theorem encodeRecs_head_noDelim : ∀ (rs : List (Span × Span)), (∀ r ∈ rs, ValidRec r) →
    ∀ y ∈ (encodeRecs rs).head?, isDelim y = false := by
  intro rs hrs y hy
  cases rs with
  | nil => simp [encodeRecs] at hy
  | cons r rs' =>
    obtain ⟨hne, hnd, _⟩ := hrs r (by simp)
    rw [encodeRecs_cons] at hy
    cases hs : r.1 with
    | nil => exact absurd hs hne
    | cons a t =>
      unfold encodeRec at hy
      rw [hs] at hy
      simp only [List.cons_append, List.head?_cons, Option.mem_def,
        Option.some.injEq] at hy
      subst hy
      exact hnd a (by rw [hs]; simp)

theorem noAdjDelim_encodeRecs : ∀ (rs : List (Span × Span)),
    (∀ r ∈ rs, ValidRec r) → NoAdjDelim (encodeRecs rs) := by
  intro rs
  induction rs with
  | nil => intro _; exact List.chain'_nil
  | cons r rs ih =>
    intro h
    have hr := h r (by simp)
    have hrs : ∀ x ∈ rs, ValidRec x := fun x hx => h x (by simp [hx])
    unfold NoAdjDelim
    rw [encodeRecs_cons, List.chain'_append]
    refine ⟨noAdjDelim_encodeRec r hr, ih hrs, ?_⟩
    intro x hx y hy
    exact Or.inr (encodeRecs_head_noDelim rs hrs y hy)

theorem pairUp_temp_len (rs : List (Span × Span)) (h : ∀ r ∈ rs, ValidRec r) :
    ∀ p ∈ pairUp (refFields (encodeRecs rs)), 3 ≤ p.2.length := by
  rw [refFields_encodeRecs rs h, pairUp_pairs]
  intro p hp
  obtain ⟨_, _, hg⟩ := h p hp
  obtain ⟨d1, _, d2, _, d3, _, hsh⟩ := hg
  rcases hsh with hsh | hsh | hsh | hsh <;> rw [hsh] <;> simp

/-- C9 (amended): on every well-formed, newline-terminated buffer — a
concatenation of records with nonempty delimiter-free station names and
in-grammar temperatures — both `parse` loops, modelled with their fixed
64/128-slot field buffers and `parse_temp`'s length-3 assumption,
terminate normally: field counts stay below capacity, every drained
measurement span has at least 3 bytes, the exhausted window iterator is
observed with an empty field buffer, and the loop exits with the
sequential aggregation.  An even delimiter count alone is not enough
(see the counterexample). -/
theorem c9_parse_terminates (rs : List (Span × Span)) (h : ∀ r ∈ rs, ValidRec r) :
    parseRsExact (encodeRecs rs) = some (refMap rs) ∧
    parseMainExact (encodeRecs rs) = some (refMap rs) := by
  have hadj := noAdjDelim_encodeRecs rs h
  have hpc : ∀ mask ∈ masksOf (encodeRecs rs), pc mask ≤ 32 :=
    masksOf_pc_le (encodeRecs rs).length (encodeRecs rs) (le_refl _) hadj
  have hp3 : ∀ p ∈ pairUp (([] : List Span) ++ extractAllGo (encodeRecs rs)
      (masksOf (encodeRecs rs)) 0 0), 3 ≤ p.2.length := by
    intro p hp
    rw [List.nil_append] at hp
    rw [show extractAllGo (encodeRecs rs) (masksOf (encodeRecs rs)) 0 0 =
      refFields (encodeRecs rs) from parseFields_eq_refFields (encodeRecs rs)] at hp
    exact pairUp_temp_len rs h p hp
  constructor
  · unfold parseRsExact
    rw [parseChunksCap_eq 128 96 (encodeRecs rs) (by omega) (by omega)
      (masksOf (encodeRecs rs)) 0 0 [] [] (by simp) hpc hp3]
    exact parseChunks_encodeRecs 96 rs h
  · unfold parseMainExact
    rw [parseChunksCap_eq 64 32 (encodeRecs rs) (by omega) (by omega)
      (masksOf (encodeRecs rs)) 0 0 [] [] (by simp) hpc hp3]
    exact parseChunks_encodeRecs 32 rs h

/-- Witness for C9 at a concrete two-record well-formed buffer. -/
theorem c9_parse_terminates_witness :
    (∀ r ∈ [(([97] : Span), strBytes "1.0"), (([98] : Span), strBytes "-2.5")],
      ValidRec r) ∧
    parseRsExact (encodeRecs [(([97] : Span), strBytes "1.0"),
        (([98] : Span), strBytes "-2.5")]) =
      some (refMap [(([97] : Span), strBytes "1.0"),
        (([98] : Span), strBytes "-2.5")]) ∧
    parseMainExact (encodeRecs [(([97] : Span), strBytes "1.0"),
        (([98] : Span), strBytes "-2.5")]) =
      some (refMap [(([97] : Span), strBytes "1.0"),
        (([98] : Span), strBytes "-2.5")]) :=
  ⟨by decide,
    (c9_parse_terminates [(([97] : Span), strBytes "1.0"),
      (([98] : Span), strBytes "-2.5")] (by decide)).1,
    (c9_parse_terminates [(([97] : Span), strBytes "1.0"),
      (([98] : Span), strBytes "-2.5")] (by decide)).2⟩

set_option maxRecDepth 40000 in
/-- C9 counterexample: sixty-four semicolons have an even delimiter
count, yet neither `parse` terminates normally: every drained
measurement span is empty, violating `parse_temp`'s length-3 assumption
(undefined behaviour), and `main.rs` additionally reads `buf[64]` out of
bounds at the carry. -/
theorem c9_even_count_counterexample :
    (List.replicate 64 59).countP isDelim % 2 = 0 ∧
    parseMainExact (List.replicate 64 59) = none ∧
    parseRsExact (List.replicate 64 59) = none :=
  ⟨by decide, by decide, by decide⟩
